import Mathlib

/-!
Verification of the Munajjam Quran-audio alignment engine.

The Python sources are shallowly embedded as Lean definitions:

* strings are `List Char`, floats are `ℚ`, Python `None`/exceptions are
  `Option`/`Except`;
* `src/src/align_segments.py`: `normalize_arabic`, `similarity`
  (difflib `SequenceMatcher(None, a, b).ratio()`), `remove_overlap`;
* `munajjam/core/cascade_recovery.py`: `find_cascade_sequences`,
  `_recover_cascade_with_resync`, `apply_cascade_recovery`;
* `munajjam/core/hybrid.py`: `_find_silences_in_range`,
  `_split_segments_at_silences`, `_try_split_and_restitch`,
  `align_segments_hybrid`, `HybridStats`;
* `munajjam/core/aligner.py`: the `Aligner` facade.

Modules of the repository that the embedded code imports but whose sources
are not available (`munajjam/models.py`, `munajjam/core/matcher.py`,
`munajjam/core/dp_core.py`, `munajjam/core/aligner_greedy.py`,
`munajjam/core/zone_realigner.py`) are either modelled from the spec
(similarity scorer, cost model, data model, error kinds) or taken as
function parameters (the DP / greedy aligner backends, the zone passes),
mirroring the Python imports.

Recursive functions whose Python originals loop on a shrinking slice are
defined through a structural fuel argument (initialised to a provably
sufficient bound) so that every definition reduces in the kernel; the
fuel-irrelevance lemmas show the fuel never runs out.
-/

set_option allowUnsafeReducibility true

/- `Batteries` marks the kernel-level rational operations `@[irreducible]`,
which blocks `decide`/`rfl` evaluation of concrete similarity scores; the
operations are perfectly computable, so restore the default reducibility.
This changes no statement and no axiom, only definitional unfolding. -/
attribute [semireducible] Rat.mul Rat.inv Rat.add Rat.sub Rat.neg Rat.div Rat.blt

set_option maxRecDepth 100000

/-- Python `str`, viewed as its list of characters. -/
abbrev Text := List Char

/-- Character list of a string literal (used for concrete inputs). -/
def str (s : String) : Text := s.data

/-- Model of Python's whitespace class (`\s`, `str.isspace`) on the
characters that actually occur in this development.  The full Unicode
whitespace table is irrelevant to the claims: the generic theorems are
proved for an arbitrary predicate. -/
def pySpace (c : Char) : Bool :=
  c = ' ' || c = '\t' || c = '\n' || c = '\r' || c = '\x0b' || c = '\x0c'

/-- Model of Python's word class (`\w`): ASCII alphanumerics, underscore
and the Arabic Unicode block.  As with `pySpace`, generic theorems are
proved for an arbitrary predicate. -/
def pyWord (c : Char) : Bool :=
  c.isAlphanum || c = '_' || (0x600 ≤ c.toNat && c.toNat ≤ 0x6FF)

/-- The three character substitutions of `normalize_arabic`
(`re.sub("[أإآا]", "ا")`, `re.sub("ى", "ي")`, `re.sub("ة", "ه")`), fused
into one character map; the three regexes act on disjoint characters and
none produces an input of a later one, so the fusion is exact. -/
def substChar (c : Char) : Char :=
  if c = 'أ' ∨ c = 'إ' ∨ c = 'آ' ∨ c = 'ا' then 'ا'
  else if c = 'ى' then 'ي'
  else if c = 'ة' then 'ه'
  else c

/-- Python `str.lstrip()` with respect to a whitespace predicate. -/
def lstripWs (sp : Char → Bool) (l : Text) : Text := l.dropWhile sp

/-- Python `str.rstrip()` with respect to a whitespace predicate. -/
def rstripWs (sp : Char → Bool) (l : Text) : Text :=
  (l.reverse.dropWhile sp).reverse

/-- Python `str.strip()` with respect to a whitespace predicate. -/
def stripWs (sp : Char → Bool) (l : Text) : Text := rstripWs sp (lstripWs sp l)

/-- Fuel-driven worker for `collapseWs`. -/
def collapseWsF (sp : Char → Bool) : ℕ → Text → Text
  | 0, _ => []
  | _, [] => []
  | fuel + 1, c :: rest =>
    if sp c then ' ' :: collapseWsF sp fuel (rest.dropWhile sp)
    else c :: collapseWsF sp fuel rest

/-- `re.sub(r"\s+", " ", ·)`: every maximal run of whitespace characters
becomes a single ASCII space. -/
def collapseWs (sp : Char → Bool) (l : Text) : Text := collapseWsF sp l.length l

/-- Fuel-driven worker for `wordsOf`. -/
def wordsOfF (sp : Char → Bool) : ℕ → Text → List Text
  | 0, _ => []
  | _, [] => []
  | fuel + 1, c :: rest =>
    if sp c then wordsOfF sp fuel rest
    else (c :: rest.takeWhile (fun x => !sp x)) ::
      wordsOfF sp fuel (rest.dropWhile (fun x => !sp x))

/-- Python `str.split()` (no argument): the maximal whitespace-free chunks,
in order, empty chunks omitted. -/
def wordsOf (sp : Char → Bool) (l : Text) : List Text := wordsOfF sp l.length l

/-- Python `" ".join(·)`. -/
def joinSpace : List Text → Text
  | [] => []
  | [w] => w
  | w :: ws => w ++ ' ' :: joinSpace ws

/-- `normalize_arabic` from `src/src/align_segments.py`: the three character
substitutions, then `re.sub(r"[^\w\s]", "", ·)` (keep word and whitespace
characters), then `re.sub(r"\s+", " ", ·)` and `.strip()`.  The word and
whitespace classes are parameters (see `pyWord`, `pySpace`). -/
def normalize_arabic (wp sp : Char → Bool) (t : Text) : Text :=
  stripWs sp (collapseWs sp ((t.map substChar).filter (fun c => wp c || sp c)))

/-! ## difflib `SequenceMatcher(None, a, b).ratio()`

`similarity` in `src/src/align_segments.py` delegates to the standard
library's `SequenceMatcher` with no junk callback.  The embedding follows
the documented algorithm: `find_longest_match` returns the longest
matching block (ties broken by the earliest start in `a`, then in `b`),
where the inner search only matches `b`-positions whose character is not
"popular" (autojunk: `len(b) >= 200` and the character occurs more than
`len(b) // 100 + 1` times); the found block is then extended on both ends
over equal characters (difflib's non-junk extension loops; the junk
extension loops are vacuous because the junk callback is `None`).
`ratio` is `2 * M / (len(a) + len(b))` where `M` sums the block sizes of
the recursive decomposition, and `1.0` for two empty strings. -/
/-- difflib autojunk: characters of `b` that are "popular". -/
def popularChar (b : Text) (c : Char) : Bool :=
  decide (200 ≤ b.length) && decide (b.length / 100 + 1 < b.count c)

/-- Longest common prefix length. -/
def lcp : Text → Text → ℕ
  | a :: as, b :: bs => if a = b then lcp as bs + 1 else 0
  | _, _ => 0

/-- Length of the matching run at the heads of two suffixes, counting only
matches whose `b`-side character is not junk. -/
def runLenP (P : Char → Bool) : Text → Text → ℕ
  | a :: as, b :: bs => if a = b && !P b then runLenP P as bs + 1 else 0
  | _, _ => 0

/-- A matching block `(i, j, size)`. -/
structure Block where
  i : ℕ
  j : ℕ
  size : ℕ
deriving DecidableEq

/-- One step of the longest-block search at pair `(i, j)`: difflib keeps
the first block of maximal size in the `i`-ascending, `j`-ascending scan,
updating only on a strictly larger size. -/
def bbStep (P : Char → Bool) (a b : Text) (i : ℕ) (acc : Block) (j : ℕ) : Block :=
  let k := runLenP P (a.drop i) (b.drop j)
  if acc.size < k then ⟨i, j, k⟩ else acc

/-- Inner scan over all `j`. -/
def bbInner (P : Char → Bool) (a b : Text) (acc : Block) (i : ℕ) : Block :=
  (List.range (b.length + 1)).foldl (bbStep P a b i) acc

/-- The raw longest matching block before the extension loops. -/
def bestBlockRaw (P : Char → Bool) (a b : Text) : Block :=
  (List.range (a.length + 1)).foldl (bbInner P a b) ⟨0, 0, 0⟩

/-- difflib's extension loops: extend the found block over equal
characters on both ends (the junk-conditioned loops are vacuous for a
`None` junk callback). -/
def extendBlock (a b : Text) (blk : Block) : Block :=
  let back := lcp (a.take blk.i).reverse (b.take blk.j).reverse
  let fwd := lcp (a.drop (blk.i + blk.size)) (b.drop (blk.j + blk.size))
  ⟨blk.i - back, blk.j - back, blk.size + back + fwd⟩

/-- `find_longest_match` over the whole strings. -/
def findLongestMatch (P : Char → Bool) (a b : Text) : Block :=
  extendBlock a b (bestBlockRaw P a b)

/-- Fuel-driven total match count of the recursive block decomposition
(`get_matching_blocks`). -/
def matchTotalF (P : Char → Bool) : ℕ → Text → Text → ℕ
  | 0, _, _ => 0
  | fuel + 1, a, b =>
    let blk := findLongestMatch P a b
    if blk.size = 0 then 0
    else
      blk.size + matchTotalF P fuel (a.take blk.i) (b.take blk.j) +
        matchTotalF P fuel (a.drop (blk.i + blk.size)) (b.drop (blk.j + blk.size))

/-- Total number of matched characters. -/
def matchTotal (P : Char → Bool) (a b : Text) : ℕ :=
  matchTotalF P (a.length + b.length) a b

/-- `SequenceMatcher(None, a, b).ratio()`. -/
def seqRatio (a b : Text) : ℚ :=
  if a.length + b.length = 0 then 1
  else 2 * (matchTotal (popularChar b) a b : ℚ) / (a.length + b.length)

/-- `similarity` from `src/src/align_segments.py`:
`SequenceMatcher(None, a, b).ratio()`. -/
def similarity (a b : Text) : ℚ := seqRatio a b

/-- The block bounds every stage of `find_longest_match` maintains. -/
def blockBounded (a b : Text) (blk : Block) : Prop :=
  blk.i + blk.size ≤ a.length ∧ blk.j + blk.size ≤ b.length

/-! ## Data model

Modelled from the spec (§3): `munajjam/models.py` is not under `src/`.
A `Segment`'s Python field `end` is called `stop` here (`end` is a Lean
keyword). -/
structure Segment where
  id : ℤ
  start : ℚ
  stop : ℚ
  text : Text
deriving DecidableEq

structure Ayah where
  ayah_number : ℕ
  surah_number : ℕ
  text : Text
deriving DecidableEq

structure AlignmentResult where
  ayah : Ayah
  start_time : ℚ
  end_time : ℚ
  transcribed_text : Text
  similarity_score : ℚ
  overlap_detected : Bool
deriving DecidableEq

def defaultSegment : Segment := ⟨0, 0, 0, []⟩

def defaultAyah : Ayah := ⟨0, 0, []⟩

def defaultResult : AlignmentResult := ⟨defaultAyah, 0, 0, [], 0, false⟩

/-- Modelled from the spec: `munajjam/core/matcher.py` (`similarity`) is
not under `src/`; §4.2 defines the scorer as the sequence ratio on the
normalized forms. -/
def matcherSimilarity (a b : Text) : ℚ :=
  seqRatio (normalize_arabic pyWord pySpace a) (normalize_arabic pyWord pySpace b)

/-- Modelled from the spec: `munajjam/core/dp_core.py`
(`compute_alignment_cost`) is not under `src/`; §4.3 defines the DP edge
cost as `1 − similarity(merged_segment_text, āya_text)` (the silence bonus
is applied by the caller). -/
def compute_alignment_cost (merged ayahText : Text) : ℚ :=
  1 - matcherSimilarity merged ayahText

/-! ## `remove_overlap` (`src/src/align_segments.py`) -/
/-- `Counter(words1)`: multiset of normalized tokens. -/
def counterOf (ws : List Text) : Text → ℕ := fun w => ws.count w

/-- The `for word in words2` loop of `remove_overlap`: drop a token when
its normalized form still has remaining count, else keep it.  Returns the
final counter and the kept tokens. -/
def removeOverlapScan (wp sp : Char → Bool) :
    (Text → ℕ) → List Text → (Text → ℕ) × List Text
  | count1, [] => (count1, [])
  | count1, word :: rest =>
    if 0 < count1 (normalize_arabic wp sp word) then
      removeOverlapScan wp sp
        (fun w => if w = normalize_arabic wp sp word then count1 w - 1 else count1 w) rest
    else
      let r := removeOverlapScan wp sp count1 rest
      (r.1, word :: r.2)

/-- `remove_overlap(text1, text2)` from `src/src/align_segments.py`. -/
def remove_overlap (wp sp : Char → Bool) (text1 text2 : Text) : Text × Bool :=
  let words1 := wordsOf sp (normalize_arabic wp sp text1)
  let words2 := wordsOf sp text2
  let cleaned := (removeOverlapScan wp sp (counterOf words1) words2).2
  if cleaned = [] then (stripWs sp text1, true)
  else (stripWs sp text1 ++ ' ' :: stripWs sp (joinSpace cleaned), true)

/-! ## Cascade recovery (`munajjam/core/cascade_recovery.py`) -/
/-- Fuel-driven worker for `find_cascade_sequences`; the Python original is
a `while` loop whose inner loop swallows the maximal run of low-similarity
results. -/
def find_cascade_sequencesF (threshold : ℚ) (minLen : ℕ) :
    ℕ → List AlignmentResult → ℕ → List (ℕ × ℕ)
  | 0, _, _ => []
  | _, [], _ => []
  | fuel + 1, r :: rest, i =>
    if r.similarity_score < threshold then
      let k := 1 + (rest.takeWhile (fun x => decide (x.similarity_score < threshold))).length
      (if minLen ≤ k then [(i, i + k)] else []) ++
        find_cascade_sequencesF threshold minLen fuel (rest.drop (k - 1)) (i + k)
    else
      find_cascade_sequencesF threshold minLen fuel rest (i + 1)

/-- `find_cascade_sequences(results, threshold, min_cascade_length)`. -/
def find_cascade_sequences (results : List AlignmentResult) (threshold : ℚ)
    (minLen : ℕ) : List (ℕ × ℕ) :=
  find_cascade_sequencesF threshold minLen results.length results 0

/-- One cell of the local re-solve DP table: total cost, merged text, the
group's first segment index, and the back pointer. -/
structure DpEntry where
  cost : ℚ
  text : Text
  segStart : ℕ
  parent : Option (ℕ × ℕ)
deriving DecidableEq

/-- The Python `dict` keyed by `(i, j)`; keys are inserted at most once,
so an association list with first-match lookup is faithful. -/
abbrev DpTable := List ((ℕ × ℕ) × DpEntry)

def tlookup : DpTable → ℕ × ℕ → Option DpEntry
  | [], _ => none
  | (k, e) :: t, key => if k = key then some e else tlookup t key

/-- The candidate entries of cell `(i, j)`, one per admissible group size
`k` whose predecessor state exists (`if (prev_i, prev_j) not in dp:
continue`), in the `k`-ascending order of the Python loop. -/
def cellCandidates (tb : DpTable) (sub_segments : List Segment)
    (sub_ayahs : List Ayah) (silence_aligned_ends : List ℕ)
    (max_segs i j : ℕ) : List DpEntry :=
  (List.range' 1 (min max_segs i)).filterMap fun k =>
    match tlookup tb (i - k, j - 1) with
    | none => none
    | some prev =>
      let merged_text := joinSpace (((sub_segments.drop (i - k)).take k).map (·.text))
      let cost0 := compute_alignment_cost merged_text
        (sub_ayahs.getD (j - 1) defaultAyah).text
      let cost := if silence_aligned_ends.contains i then cost0 - 3/20 else cost0
      some ⟨prev.cost + cost, merged_text, i - k, some (i - k, j - 1)⟩

/-- Python's running minimum with strict `<`: the first candidate of
minimal cost wins. -/
def pickMinEntry : List DpEntry → Option DpEntry
  | [] => none
  | e :: t => some (t.foldl (fun b c => if c.cost < b.cost then c else b) e)

/-- The nested `for j ... for i ...` fill of the DP dictionary, starting
from `dp[(0, 0)] = (0.0, "", 0, None)`. -/
def fillTable (sub_segments : List Segment) (sub_ayahs : List Ayah)
    (silence_aligned_ends : List ℕ) (max_segs nS nA : ℕ) : DpTable :=
  (List.range' 1 nA).foldl (fun tb j =>
    (List.range' j (nS + 1 - j)).foldl (fun tb2 i =>
      match pickMinEntry (cellCandidates tb2 sub_segments sub_ayahs
        silence_aligned_ends max_segs i j) with
      | some e => tb2 ++ [((i, j), e)]
      | none => tb2) tb)
    [((0, 0), ⟨0, [], 0, none⟩)]

/-- Python's running minimum over the admissible end states
`(i, n_sub_ayah)` for `i` in `range(n_sub_ayah, n_sub_seg + 1)`. -/
def bestEnd (tb : DpTable) (nS nA : ℕ) : Option ((ℕ × ℕ) × DpEntry) :=
  match (List.range' nA (nS + 1 - nA)).filterMap (fun i =>
    match tlookup tb (i, nA) with
    | none => none
    | some e => some ((i, nA), e)) with
  | [] => none
  | c :: cs => some (cs.foldl (fun b c' => if c'.2.cost < b.2.cost then c' else b) c)

/-- One backtracked grouping: segment range `[segStart, segEnd)`, the
1-based āya index within the window, and the merged text. -/
structure PathEntry where
  segStart : ℕ
  segEnd : ℕ
  ayahIdx : ℕ
  text : Text
deriving DecidableEq

/-- The `while current in dp` backtracking loop.  The Python loop collects
entries and reverses at the end; this recursion produces them directly in
the reversed (final) order.  The fuel bounds the chain length; parents
decrease the āya index by one, so `nA + 1` steps always suffice. -/
def backtrack (tb : DpTable) : ℕ → ℕ × ℕ → List PathEntry
  | 0, _ => []
  | fuel + 1, cur =>
    match tlookup tb cur with
    | none => []
    | some e =>
      match e.parent with
      | none => []
      | some p => backtrack tb fuel p ++ [⟨e.segStart, cur.1, cur.2, e.text⟩]

def sumScores (rs : List AlignmentResult) : ℚ :=
  rs.foldl (fun acc r => acc + r.similarity_score) 0

/-- `_recover_cascade_with_resync` from
`munajjam/core/cascade_recovery.py`.  Python indexing is modelled with
`getD` (all accesses are in range on the paths the callers exercise), and
the `len(new_results) != extended_end - extended_start` comparison is done
in `ℤ` because the Python difference can be negative. -/
def recover_cascade_with_resync (segments : List Segment) (ayahs : List Ayah)
    (results : List AlignmentResult) (cascade_start cascade_end : ℕ)
    (silences_sec : List (ℚ × ℚ)) (context_ayahs : ℕ) :
    Option (List AlignmentResult) :=
  let extended_start := cascade_start - context_ayahs
  let extended_end := min results.length (cascade_end + context_ayahs)
  let seg_start_time := (results.getD extended_start defaultResult).start_time
  let seg_end_time := (results.getD (extended_end - 1) defaultResult).end_time
  let seg_indices := (List.range segments.length).filter fun idx =>
    decide (seg_start_time - 1/2 ≤ (segments.getD idx defaultSegment).start) &&
    decide ((segments.getD idx defaultSegment).stop ≤ seg_end_time + 1/2)
  if seg_indices = [] then none
  else
    let seg_range_start := (seg_indices.min?).getD 0
    let seg_range_end := (seg_indices.max?).getD 0 + 1
    let sub_segments := (segments.drop seg_range_start).take (seg_range_end - seg_range_start)
    let sub_ayahs :=
      ((results.drop extended_start).take (extended_end - extended_start)).map (·.ayah)
    if sub_segments.length < sub_ayahs.length then none
    else
      let relevant_silences := silences_sec.filter fun s =>
        decide (seg_start_time ≤ s.1) && decide (s.1 ≤ seg_end_time)
      let n_sub_seg := sub_segments.length
      let n_sub_ayah := sub_ayahs.length
      let silence_aligned_ends := (List.range n_sub_seg).filterMap fun idx =>
        if relevant_silences.any fun s =>
            decide (|(sub_segments.getD idx defaultSegment).stop - s.1| < 3/10)
        then some (idx + 1) else none
      let max_segs := min 6 n_sub_seg
      let tb := fillTable sub_segments sub_ayahs silence_aligned_ends max_segs
        n_sub_seg n_sub_ayah
      match bestEnd tb n_sub_seg n_sub_ayah with
      | none => none
      | some be =>
        let path := backtrack tb (n_sub_ayah + 1) be.1
        let new_results := path.filterMap fun pe =>
          if n_sub_seg ≤ pe.segStart ∨ n_sub_seg < pe.segEnd then none
          else
            let ayah := sub_ayahs.getD (pe.ayahIdx - 1) defaultAyah
            some ⟨ayah,
              (sub_segments.getD pe.segStart defaultSegment).start,
              (sub_segments.getD (pe.segEnd - 1) defaultSegment).stop,
              pe.text,
              matcherSimilarity pe.text ayah.text,
              false⟩
        if (new_results.length : ℤ) ≠ (extended_end : ℤ) - (extended_start : ℤ) then none
        else
          let old_results_range :=
            (results.drop extended_start).take (extended_end - extended_start)
          if (old_results_range.zip new_results).all (fun p =>
              !(decide (3/4 ≤ p.1.similarity_score) &&
                decide (2/25 < p.1.similarity_score - p.2.similarity_score)) &&
              !(decide (1/2 ≤ p.1.similarity_score) &&
                decide (3/25 < p.1.similarity_score - p.2.similarity_score)) &&
              !(decide (3/4 ≤ p.1.similarity_score) &&
                decide (p.2.similarity_score < 7/10)))
          then
            let cascade_old_start := max 0 1
            let cascade_old_end := if 2 < old_results_range.length
              then old_results_range.length - 1 else old_results_range.length
            let cascade_len := cascade_old_end - cascade_old_start
            if cascade_len = 0 then none
            else
              let old_avg := sumScores ((old_results_range.drop cascade_old_start).take
                (cascade_old_end - cascade_old_start)) / cascade_len
              let new_avg := sumScores ((new_results.drop cascade_old_start).take
                (cascade_old_end - cascade_old_start)) / cascade_len
              if old_avg + 2/25 < new_avg then some new_results else none
          else none

/-- One iteration of the `for cascade_start, cascade_end in
reversed(cascades)` loop of `apply_cascade_recovery`. -/
def cascadeStep (segments : List Segment) (ayahs : List Ayah)
    (silences_sec : List (ℚ × ℚ)) (improved : List AlignmentResult)
    (c : ℕ × ℕ) : List AlignmentResult :=
  match recover_cascade_with_resync segments ayahs improved c.1 c.2
    silences_sec 1 with
  | none => improved
  | some recovery =>
    if recovery = [] then improved
    else
      let ext_start := c.1 - 1
      let ext_end := min improved.length (c.2 + 1)
      improved.take ext_start ++ recovery ++ improved.drop ext_end

/-- `apply_cascade_recovery` from `munajjam/core/cascade_recovery.py`.
`silences_ms = None` and `silences_ms = []` behave identically in the
Python (both are falsy), so silences are a plain list; `if recovery:`
tests Python truthiness, i.e. non-`None` and nonempty. -/
def apply_cascade_recovery (segments : List Segment) (ayahs : List Ayah)
    (results : List AlignmentResult) (silences_ms : List (ℤ × ℤ))
    (cascade_threshold : ℚ) (min_cascade_length : ℕ) : List AlignmentResult :=
  if results = [] then results
  else
    let silences_sec := silences_ms.map fun p => ((p.1 : ℚ) / 1000, (p.2 : ℚ) / 1000)
    let cascades := find_cascade_sequences results cascade_threshold min_cascade_length
    if cascades = [] then results
    else
      cascades.reverse.foldl (cascadeStep segments ayahs silences_sec) results

/-! ## Concrete inputs for the cascade-recovery counterexamples -/
/-- Six segments for the two-cascade scenario (claim C1). -/
def c1Segments : List Segment :=
  [⟨0, 0, 4/5, str "ppp"⟩,
   ⟨1, 4/5, 8/5, str "qqq"⟩,
   ⟨2, 8/5, 12/5, str "r"⟩,
   ⟨3, 12/5, 16/5, str "rrrrr"⟩,
   ⟨4, 16/5, 4, str "sssss"⟩,
   ⟨5, 4, 24/5, str "ttttt"⟩]

def c1Ayah0 : Ayah := ⟨1, 1, str "pppvv"⟩

def c1Ayah1 : Ayah := ⟨2, 1, str "qqqww"⟩

def c1Ayah2 : Ayah := ⟨3, 1, str "rrrrrzzzz"⟩

def c1Ayah3 : Ayah := ⟨4, 1, str "sssssyyyy"⟩

def c1Ayah4 : Ayah := ⟨5, 1, str "tttttxxxx"⟩

def c1Ayahs : List Ayah := [c1Ayah0, c1Ayah1, c1Ayah2, c1Ayah3, c1Ayah4]

/-- Input alignment results: two cascades `[0,2)` and `[3,5)` separated by
the good āya at index 2 (similarity 0.75). -/
def c1Results : List AlignmentResult :=
  [⟨c1Ayah0, 0, 8/5, str "x", 3/5, false⟩,
   ⟨c1Ayah1, 8/5, 12/5, str "x", 3/5, false⟩,
   ⟨c1Ayah2, 12/5, 16/5, str "x", 3/4, false⟩,
   ⟨c1Ayah3, 16/5, 4, str "x", 3/5, false⟩,
   ⟨c1Ayah4, 4, 24/5, str "x", 3/5, false⟩]

/-- Two segments for the two-result-window scenario (claim C2). -/
def c2Segments : List Segment :=
  [⟨0, 0, 1, str "ppp"⟩, ⟨1, 1, 2, str "q"⟩]

def c2Ayah0 : Ayah := ⟨1, 1, str "pppvvvvvv"⟩

def c2Ayah1 : Ayah := ⟨2, 1, str "qwwwwwwww"⟩

def c2Ayahs : List Ayah := [c2Ayah0, c2Ayah1]

/-- A two-result cascade: the whole result list is one cascade and no
context āya exists, so the extended window has exactly two results. -/
def c2Results : List AlignmentResult :=
  [⟨c2Ayah0, 0, 1, str "x", 3/5, false⟩,
   ⟨c2Ayah1, 1, 2, str "x", 0, false⟩]

/-! ## Hybrid orchestrator (`munajjam/core/hybrid.py`) -/
structure HybridStats where
  total_ayahs : ℕ
  dp_kept : ℕ
  old_fallback : ℕ
  split_improved : ℕ
  still_low : ℕ
deriving DecidableEq

/-- `_find_silences_in_range`: clip each silence to the range and keep it
when the clipped duration reaches `min_duration`. -/
def find_silences_in_range (silences_sec : List (ℚ × ℚ))
    (start_time end_time min_duration : ℚ) : List (ℚ × ℚ) :=
  silences_sec.filterMap fun s =>
    if decide (start_time < s.2) && decide (s.1 < end_time) then
      let clipped_start := max s.1 start_time
      let clipped_end := min s.2 end_time
      if decide (min_duration ≤ clipped_end - clipped_start) then
        some (clipped_start, clipped_end)
      else none
    else none

/-- Stable insertion of a silence into a start-sorted prefix (Python's
`silences.sort(key=lambda x: x[0])` is stable). -/
def insertSil : List (ℚ × ℚ) → (ℚ × ℚ) → List (ℚ × ℚ)
  | [], s => [s]
  | t :: ts, s => if decide (t.1 ≤ s.1) then t :: insertSil ts s else s :: t :: ts

def sortSilences (l : List (ℚ × ℚ)) : List (ℚ × ℚ) := l.foldl insertSil []

/-- The chunk-building loop of `_split_segments_at_silences`, with state
`(chunks, current_chunk, silence_idx)`. -/
def splitChunksStep (silences : List (ℚ × ℚ))
    (st : List (List Segment) × List Segment × ℕ) (seg : Segment) :
    List (List Segment) × List Segment × ℕ :=
  let chunks := st.1
  let current := st.2.1
  let silence_idx := st.2.2
  if h : silence_idx < silences.length then
    let s := silences.getD silence_idx (0, 0)
    if decide (seg.stop ≤ s.1) then (chunks, current ++ [seg], silence_idx)
    else if decide (s.2 ≤ seg.start) then
      ((if current = [] then chunks else chunks ++ [current]), [seg], silence_idx + 1)
    else (chunks ++ [current ++ [seg]], [], silence_idx + 1)
  else (chunks, current ++ [seg], silence_idx)

/-- `_split_segments_at_silences`. -/
def split_segments_at_silences (segments : List Segment)
    (silences_sec : List (ℚ × ℚ)) (start_time end_time : ℚ) :
    List (List Segment) :=
  let range_segments := segments.filter fun sg =>
    decide (start_time - 1/2 ≤ sg.start) && decide (sg.stop ≤ end_time + 1/2)
  if range_segments = [] then []
  else
    let silences := find_silences_in_range silences_sec start_time end_time (1/5)
    if silences = [] then [range_segments]
    else
      let silences := sortSilences silences
      let st := range_segments.foldl (splitChunksStep silences) ([], [], 0)
      let chunks := if st.2.1 = [] then st.1 else st.1 ++ [st.2.1]
      if chunks = [] then [range_segments] else chunks

/-- `_try_split_and_restitch`. -/
def try_split_and_restitch (segments : List Segment) (ayah : Ayah)
    (dp_result : AlignmentResult) (silences_ms : List (ℤ × ℤ)) :
    Option AlignmentResult :=
  if silences_ms = [] then none
  else
    let silences_sec := silences_ms.map fun p => ((p.1 : ℚ) / 1000, (p.2 : ℚ) / 1000)
    let chunks := split_segments_at_silences segments silences_sec
      dp_result.start_time dp_result.end_time
    if chunks.length ≤ 1 then none
    else
      let all_texts := chunks.filterMap fun chunk =>
        let chunk_text := joinSpace (chunk.map (·.text))
        if stripWs pySpace chunk_text = [] then none else some chunk_text
      if all_texts = [] then none
      else
        let merged_text := joinSpace all_texts
        let new_sim := matcherSimilarity merged_text ayah.text
        if decide (dp_result.similarity_score + 1/20 < new_sim) then
          some ⟨ayah, dp_result.start_time, dp_result.end_time, merged_text,
            new_sim, dp_result.overlap_detected⟩
        else none

/-- The DP / greedy aligner backends (`dp_core.align_segments_dp_with_constraints`
and `aligner_greedy.align_segments` are not under `src/`); they are function
parameters, mirroring the Python imports.  The progress callback has no
effect on results and is omitted. -/
abbrev AlignerBackend := List Segment → List Ayah → List (ℤ × ℤ) → List AlignmentResult

/-- Python `dict` insertion: overwrite the value of an existing key, else
append. -/
def dictInsert (m : List (ℕ × AlignmentResult)) (k : ℕ) (v : AlignmentResult) :
    List (ℕ × AlignmentResult) :=
  match m with
  | [] => [(k, v)]
  | (k', v') :: t => if k' = k then (k, v) :: t else (k', v') :: dictInsert t k v

def dictGet : List (ℕ × AlignmentResult) → ℕ → Option AlignmentResult
  | [], _ => none
  | (k', v) :: t, k => if k' = k then some v else dictGet t k

/-- `old_by_ayah`: the greedy results keyed by āya number. -/
def buildOldByAyah (old_results : List AlignmentResult) :
    List (ℕ × AlignmentResult) :=
  old_results.foldl (fun m r => dictInsert m r.ayah.ayah_number r) []

/-- Which candidate won for one āya (Python uses the strings `"dp"`,
`"split"`, `"old"`). -/
inductive HybridSource
  | dp
  | split
  | old
deriving DecidableEq

/-- The fallback chain of the low-quality branch: start from the DP
result, try split-and-restitch for long āyāt, then the greedy result; each
replacement requires a strictly larger similarity. -/
def hybridChoose (segments : List Segment) (silences_ms : List (ℤ × ℤ))
    (dp_r : AlignmentResult) (old? : Option AlignmentResult) (is_long : Bool) :
    AlignmentResult × HybridSource :=
  let b0 := (dp_r, HybridSource.dp)
  let b1 := if is_long then
      match try_split_and_restitch segments dp_r.ayah dp_r silences_ms with
      | some sr => if decide (b0.1.similarity_score < sr.similarity_score)
          then (sr, HybridSource.split) else b0
      | none => b0
    else b0
  match old? with
  | some old_r => if decide (b1.1.similarity_score < old_r.similarity_score)
      then (old_r, HybridSource.old) else b1
  | none => b1

/-- The per-āya statistics update of the main loop. -/
def statsBump (st : HybridStats) (quality_threshold : ℚ)
    (choice : AlignmentResult × HybridSource) : HybridStats :=
  match choice.2 with
  | HybridSource.old => { st with old_fallback := st.old_fallback + 1 }
  | HybridSource.split => { st with split_improved := st.split_improved + 1 }
  | HybridSource.dp =>
    if decide (choice.1.similarity_score < quality_threshold) then
      { st with still_low := st.still_low + 1 }
    else { st with dp_kept := st.dp_kept + 1 }

/-- One iteration of the `for dp_r in dp_results` loop. -/
def hybridStep (segments : List Segment) (silences_ms : List (ℤ × ℤ))
    (quality_threshold : ℚ) (long_ayah_words : ℕ) (long_ayah_duration : ℚ)
    (old_by_ayah : List (ℕ × AlignmentResult))
    (acc : List AlignmentResult × HybridStats) (dp_r : AlignmentResult) :
    List AlignmentResult × HybridStats :=
  if decide (quality_threshold ≤ dp_r.similarity_score) then
    (acc.1 ++ [dp_r], { acc.2 with dp_kept := acc.2.dp_kept + 1 })
  else
    let ayah_word_count := (wordsOf pySpace dp_r.ayah.text).length
    let ayah_duration := dp_r.end_time - dp_r.start_time
    let is_long_ayah := decide (long_ayah_words < ayah_word_count) ||
      decide (long_ayah_duration < ayah_duration)
    let choice := hybridChoose segments silences_ms dp_r
      (dictGet old_by_ayah dp_r.ayah.ayah_number) is_long_ayah
    (acc.1 ++ [choice.1], statsBump acc.2 quality_threshold choice)

/-- `align_segments_hybrid` from `munajjam/core/hybrid.py`. -/
def align_segments_hybrid (dpAligner greedyAligner : AlignerBackend)
    (segments : List Segment) (ayahs : List Ayah)
    (silences_ms : List (ℤ × ℤ)) (quality_threshold : ℚ)
    (long_ayah_words : ℕ) (long_ayah_duration : ℚ) :
    List AlignmentResult × HybridStats :=
  let stats0 : HybridStats := ⟨ayahs.length, 0, 0, 0, 0⟩
  if segments = [] ∨ ayahs = [] then ([], stats0)
  else
    let dp_results := dpAligner segments ayahs silences_ms
    if dp_results = [] then
      let old_results := greedyAligner segments ayahs silences_ms
      (old_results, { stats0 with old_fallback := old_results.length })
    else
      let old_results := greedyAligner segments ayahs silences_ms
      let old_by_ayah := buildOldByAyah old_results
      dp_results.foldl (hybridStep segments silences_ms quality_threshold
        long_ayah_words long_ayah_duration old_by_ayah) ([], stats0)

/-! ## Aligner facade (`munajjam/core/aligner.py`) -/
inductive AlignmentStrategy
  | greedy
  | dp
  | hybrid
deriving DecidableEq

/-- Modelled from the spec (§7): the error kinds the core may report.  The
`Aligner.align` source raises no exception itself; the `Except` result
type makes "an error is surfaced" a statable outcome. -/
inductive AlignError
  | invalidInput
  | infeasible
deriving DecidableEq

/-- `Aligner.align`: strategy dispatch, then the zone-realignment and
overlap-fix post-passes (both from the missing `zone_realigner.py`, hence
parameters).  `if not segments or not ayahs: return []` is the first
statement of the body. -/
def aligner_align (dpAligner greedyAligner : AlignerBackend)
    (zoneRealign : List AlignmentResult → List Segment → List Ayah →
      List AlignmentResult)
    (overlapFix : List AlignmentResult → List AlignmentResult)
    (strategy : AlignmentStrategy) (quality_threshold : ℚ)
    (fix_drift fix_overlaps : Bool)
    (segments : List Segment) (ayahs : List Ayah)
    (silences_ms : List (ℤ × ℤ)) :
    Except AlignError (List AlignmentResult) :=
  if segments = [] ∨ ayahs = [] then Except.ok []
  else
    let results := match strategy with
      | AlignmentStrategy.greedy => greedyAligner segments ayahs silences_ms
      | AlignmentStrategy.dp => dpAligner segments ayahs silences_ms
      | AlignmentStrategy.hybrid =>
        (align_segments_hybrid dpAligner greedyAligner segments ayahs
          silences_ms quality_threshold 30 30).1
    let results := if fix_drift && !results.isEmpty then
      zoneRealign results segments ayahs else results
    let results := if fix_overlaps && !results.isEmpty then
      overlapFix results else results
    Except.ok results

def c10Segments : List Segment :=
  [⟨0, 0, 1, str "ab"⟩, ⟨1, 2, 3, str "cd"⟩]

def c10Ayah : Ayah := ⟨1, 1, str "ab cd"⟩

def c10DpResult : AlignmentResult := ⟨c10Ayah, 0, 3, str "x", 0, false⟩

def c10Expected : AlignmentResult := ⟨c10Ayah, 0, 3, str "ab cd", 1, false⟩

/-! ## Claim C3 — hybrid per-āya best-of-candidates -/
/-- The emitted result for one DP result of the main loop (the loop body
of `align_segments_hybrid`, restated as a function for the fold lemma). -/
def hybridEmitOne (segments : List Segment) (silences_ms : List (ℤ × ℤ))
    (quality_threshold : ℚ) (long_ayah_words : ℕ) (long_ayah_duration : ℚ)
    (old_by_ayah : List (ℕ × AlignmentResult)) (dp_r : AlignmentResult) :
    AlignmentResult :=
  if decide (quality_threshold ≤ dp_r.similarity_score) then dp_r
  else
    let ayah_word_count := (wordsOf pySpace dp_r.ayah.text).length
    let ayah_duration := dp_r.end_time - dp_r.start_time
    let is_long_ayah := decide (long_ayah_words < ayah_word_count) ||
      decide (long_ayah_duration < ayah_duration)
    (hybridChoose segments silences_ms dp_r
      (dictGet old_by_ayah dp_r.ayah.ayah_number) is_long_ayah).1

/-- The candidate pool the main loop chooses from for one DP result. -/
def hybridCandidates (segments : List Segment) (silences_ms : List (ℤ × ℤ))
    (old_by_ayah : List (ℕ × AlignmentResult)) (dp_r : AlignmentResult)
    (is_long : Bool) : List AlignmentResult :=
  dp_r :: ((if is_long then
      (try_split_and_restitch segments dp_r.ayah dp_r silences_ms).toList
    else []) ++ (dictGet old_by_ayah dp_r.ayah.ayah_number).toList)

def w3Seg : Segment := ⟨1, 0, 1, str "a"⟩

def w3Ayah : Ayah := ⟨1, 1, str "a"⟩

def w3R : AlignmentResult := ⟨w3Ayah, 0, 1, str "a", 1, false⟩

def w3Dp : AlignerBackend := fun _ _ _ => [w3R]

def w3Greedy : AlignerBackend := fun _ _ _ => []

/-! ## The cascade acceptance gate, named for the C1/C2 statements -/
/-- The extended window `results[extended_start:extended_end]` that a
cascade recovery replaces. -/
def extWindow (results : List AlignmentResult) (cs ce ctx : ℕ) :
    List AlignmentResult :=
  (results.drop (cs - ctx)).take (min results.length (ce + ctx) - (cs - ctx))

/-- The per-pair degradation check of the conservative gate (one `zip`
element: `p.1` the pre-recovery result, `p.2` the candidate). -/
def cascadePairOk (p : AlignmentResult × AlignmentResult) : Bool :=
  !(decide (3/4 ≤ p.1.similarity_score) &&
    decide (2/25 < p.1.similarity_score - p.2.similarity_score)) &&
  !(decide (1/2 ≤ p.1.similarity_score) &&
    decide (3/25 < p.1.similarity_score - p.2.similarity_score)) &&
  !(decide (3/4 ≤ p.1.similarity_score) &&
    decide (p.2.similarity_score < 7/10))

/-- `cascade_old_end`: the code always stops the averaged region one short
of the window only when the window has more than 2 results. -/
def cascadeOldEnd (old : List AlignmentResult) : ℕ :=
  if 2 < old.length then old.length - 1 else old.length

/-- The candidate the local re-solve produces on the `c2` input. -/
def c2New : List AlignmentResult :=
  [⟨c2Ayah0, 0, 1, str "ppp", 1/2, false⟩,
   ⟨c2Ayah1, 1, 2, str "q", 1/5, false⟩]

/-- Well-formedness of the DP dictionary: every stored cell with a
positive āya index has a stored parent one āya lower, and āya index 0
cells have no parent. -/
def TableOk (tb : DpTable) : Prop :=
  ∀ k e, tlookup tb k = some e →
    (k.2 = 0 → e.parent = none) ∧
    (1 ≤ k.2 → ∃ p pe, e.parent = some p ∧ p.2 + 1 = k.2 ∧
      tlookup tb p = some pe)

theorem collapseWsF_fuel (sp : Char → Bool) :
    ∀ (f g : ℕ) (l : Text), l.length ≤ f → l.length ≤ g →
      collapseWsF sp f l = collapseWsF sp g l := by
  intro f
  induction f with
  | zero =>
    intro g l hf _
    have : l = [] := List.length_eq_zero.mp (Nat.le_zero.mp hf)
    subst this
    cases g <;> rfl
  | succ f ih =>
    intro g l hf hg
    cases l with
    | nil => cases g <;> rfl
    | cons c rest =>
      cases g with
      | zero => simp at hg
      | succ g =>
        simp only [List.length_cons, Nat.succ_le_succ_iff] at hf hg
        simp only [collapseWsF]
        by_cases h : sp c
        · have hlen := (List.dropWhile_sublist (l := rest) sp).length_le
          simp [h, ih g (rest.dropWhile sp) (le_trans hlen hf) (le_trans hlen hg)]
        · simp [h, ih g rest hf hg]

theorem collapseWs_nil (sp : Char → Bool) : collapseWs sp [] = [] := rfl

theorem collapseWs_cons (sp : Char → Bool) (c : Char) (rest : Text) :
    collapseWs sp (c :: rest) =
      if sp c then ' ' :: collapseWs sp (rest.dropWhile sp)
      else c :: collapseWs sp rest := by
  unfold collapseWs
  simp only [List.length_cons, collapseWsF]
  by_cases h : sp c
  · have hlen := (List.dropWhile_sublist (l := rest) sp).length_le
    simp [h, collapseWsF_fuel sp rest.length (rest.dropWhile sp).length
      (rest.dropWhile sp) hlen le_rfl]
  · simp [h]

theorem wordsOfF_fuel (sp : Char → Bool) :
    ∀ (f g : ℕ) (l : Text), l.length ≤ f → l.length ≤ g →
      wordsOfF sp f l = wordsOfF sp g l := by
  intro f
  induction f with
  | zero =>
    intro g l hf _
    have : l = [] := List.length_eq_zero.mp (Nat.le_zero.mp hf)
    subst this
    cases g <;> rfl
  | succ f ih =>
    intro g l hf hg
    cases l with
    | nil => cases g <;> rfl
    | cons c rest =>
      cases g with
      | zero => simp at hg
      | succ g =>
        simp only [List.length_cons, Nat.succ_le_succ_iff] at hf hg
        simp only [wordsOfF]
        by_cases h : sp c
        · simp [h, ih g rest hf hg]
        · have hlen := (List.dropWhile_sublist (l := rest) (fun x => !sp x)).length_le
          simp [h, ih g (rest.dropWhile (fun x => !sp x))
            (le_trans hlen hf) (le_trans hlen hg)]

theorem wordsOf_nil (sp : Char → Bool) : wordsOf sp [] = [] := rfl

theorem wordsOf_cons (sp : Char → Bool) (c : Char) (rest : Text) :
    wordsOf sp (c :: rest) =
      if sp c then wordsOf sp rest
      else (c :: rest.takeWhile (fun x => !sp x)) ::
        wordsOf sp (rest.dropWhile (fun x => !sp x)) := by
  unfold wordsOf
  simp only [List.length_cons, wordsOfF]
  by_cases h : sp c
  · simp [h, wordsOfF_fuel sp rest.length rest.length rest le_rfl le_rfl]
  · have hlen := (List.dropWhile_sublist (l := rest) (fun x => !sp x)).length_le
    simp [h, wordsOfF_fuel sp rest.length (rest.dropWhile (fun x => !sp x)).length
      (rest.dropWhile (fun x => !sp x)) hlen le_rfl]

theorem sanity_normalize_ex : normalize_arabic pyWord pySpace (str "  a   b! ") = str "a b" := by decide

theorem sanity_collapseWs_ex : collapseWs pySpace (str " x  y ") = str " x y " := by decide

theorem sanity_wordsOf_ex : wordsOf pySpace (str " ab  c ") = [str "ab", str "c"] := by decide

theorem wordsOf_spec_aux (sp : Char → Bool) :
    ∀ (n : ℕ) (l : Text), l.length ≤ n → ∀ w ∈ wordsOf sp l,
      w ≠ [] ∧ ∀ c ∈ w, sp c = false ∧ c ∈ l := by
  intro n
  induction n with
  | zero =>
    intro l hl w hw
    have : l = [] := List.length_eq_zero.mp (Nat.le_zero.mp hl)
    subst this
    simp [wordsOf_nil] at hw
  | succ n ih =>
    intro l hl w hw
    cases l with
    | nil => simp [wordsOf_nil] at hw
    | cons c rest =>
      simp only [List.length_cons, Nat.succ_le_succ_iff] at hl
      rw [wordsOf_cons] at hw
      by_cases h : sp c
      · simp only [h, if_true] at hw
        obtain ⟨hne, hall⟩ := ih rest hl w hw
        exact ⟨hne, fun x hx => ⟨(hall x hx).1, List.mem_cons_of_mem c (hall x hx).2⟩⟩
      · rw [if_neg h] at hw
        rcases List.mem_cons.mp hw with hw | hw
        · subst hw
          refine ⟨by simp, ?_⟩
          intro x hx
          rcases List.mem_cons.mp hx with rfl | hx
          · exact ⟨Bool.of_not_eq_true h ▸ (Bool.not_eq_true _).mp h, List.mem_cons_self _ _⟩
          · have hp := List.mem_takeWhile_imp hx
            have hmem := (List.takeWhile_sublist (l := rest) _).subset hx
            simp only [Bool.not_eq_true'] at hp
            exact ⟨hp, List.mem_cons_of_mem c hmem⟩
        · have hlen := (List.dropWhile_sublist (l := rest) (fun x => !sp x)).length_le
          obtain ⟨hne, hall⟩ := ih _ (le_trans hlen hl) w hw
          refine ⟨hne, fun x hx => ⟨(hall x hx).1, ?_⟩⟩
          have := (List.dropWhile_sublist (l := rest) (fun x => !sp x)).subset (hall x hx).2
          exact List.mem_cons_of_mem c this

/-- Words produced by `wordsOf` are nonempty, whitespace-free, and draw
their characters from the input. -/
theorem wordsOf_spec (sp : Char → Bool) (l : Text) :
    ∀ w ∈ wordsOf sp l, w ≠ [] ∧ ∀ c ∈ w, sp c = false ∧ c ∈ l :=
  wordsOf_spec_aux sp l.length l le_rfl

/-- Leading whitespace does not change the word decomposition. -/
theorem wordsOf_dropWhile (sp : Char → Bool) :
    ∀ l : Text, wordsOf sp (l.dropWhile sp) = wordsOf sp l := by
  intro l
  induction l with
  | nil => rfl
  | cons c rest ih =>
    by_cases h : sp c
    · rw [List.dropWhile_cons_of_pos h, ih, wordsOf_cons]
      simp [h]
    · rw [List.dropWhile_cons_of_neg (by simp [h])]

/-- `collapseWs` passes a whitespace-free prefix through unchanged. -/
theorem collapseWs_append_of_nonspace (sp : Char → Bool) :
    ∀ (x y : Text), (∀ c ∈ x, sp c = false) →
      collapseWs sp (x ++ y) = x ++ collapseWs sp y := by
  intro x
  induction x with
  | nil => intro y _; rfl
  | cons c rest ih =>
    intro y hx
    have hc : sp c = false := hx c (List.mem_cons_self _ _)
    rw [List.cons_append, collapseWs_cons]
    simp only [hc, Bool.false_eq_true, if_false, List.cons_append]
    exact congrArg (c :: ·) (ih y (fun d hd => hx d (List.mem_cons_of_mem c hd)))

/-- `dropWhile` is the identity when the head (if any) fails the test. -/
theorem dropWhile_eq_self_of_head (sp : Char → Bool) (l : Text)
    (h : ∀ c, l.head? = some c → sp c = false) : l.dropWhile sp = l := by
  cases l with
  | nil => rfl
  | cons c rest =>
    have := h c rfl
    simp [List.dropWhile_cons, this]

/-- The collapse of a list with non-whitespace head has non-whitespace
head. -/
theorem collapseWs_head (sp : Char → Bool) (l : Text)
    (h : ∀ c, l.head? = some c → sp c = false) :
    ∀ c, (collapseWs sp l).head? = some c → sp c = false := by
  cases l with
  | nil => intro c hc; simp [collapseWs_nil] at hc
  | cons c rest =>
    have hc := h c rfl
    rw [collapseWs_cons]
    simp only [hc, Bool.false_eq_true, if_false]
    intro d hd
    simp only [List.head?_cons, Option.some.injEq] at hd
    exact hd ▸ hc

/-- `lstrip` after collapse equals collapse after `dropWhile` (needs the
replacement character to count as whitespace). -/
theorem lstrip_collapseWs (sp : Char → Bool) (hsp : sp ' ' = true) :
    ∀ l : Text, lstripWs sp (collapseWs sp l) = collapseWs sp (l.dropWhile sp) := by
  intro l
  cases l with
  | nil => rfl
  | cons c rest =>
    by_cases h : sp c
    · rw [collapseWs_cons, List.dropWhile_cons_of_pos h]
      simp only [h, if_true, lstripWs, List.dropWhile_cons_of_pos hsp]
      apply dropWhile_eq_self_of_head
      apply collapseWs_head
      intro d hd
      have hnot := List.head?_dropWhile_not sp rest
      rw [hd] at hnot
      exact hnot
    · rw [List.dropWhile_cons_of_neg (by simp [h]), collapseWs_cons]
      simp only [h, Bool.false_eq_true, if_false, lstripWs]
      exact List.dropWhile_cons_of_neg (by simp [h])

theorem dropWhile_eq_self_of_all (sp : Char → Bool) (l : Text)
    (h : ∀ c ∈ l, sp c = false) : l.dropWhile sp = l := by
  cases l with
  | nil => rfl
  | cons c rest => simp [List.dropWhile_cons, h c (List.mem_cons_self _ _)]

theorem rstrip_eq_self_of_all (sp : Char → Bool) (l : Text)
    (h : ∀ c ∈ l, sp c = false) : rstripWs sp l = l := by
  unfold rstripWs
  rw [dropWhile_eq_self_of_all sp l.reverse (fun c hc => h c (List.mem_reverse.mp hc))]
  exact List.reverse_reverse l

theorem rstrip_append_space (sp : Char → Bool) (hsp : sp ' ' = true) (x : Text)
    (hx : ∀ c ∈ x, sp c = false) : rstripWs sp (x ++ [' ']) = x := by
  unfold rstripWs
  rw [List.reverse_append]
  simp only [List.reverse_cons, List.reverse_nil, List.nil_append, List.singleton_append]
  rw [List.dropWhile_cons_of_pos hsp,
    dropWhile_eq_self_of_all sp x.reverse (fun c hc => hx c (List.mem_reverse.mp hc))]
  exact List.reverse_reverse x

theorem rstrip_append_of_ne_nil (sp : Char → Bool) (x y : Text)
    (hy : rstripWs sp y ≠ []) : rstripWs sp (x ++ y) = x ++ rstripWs sp y := by
  unfold rstripWs at hy ⊢
  rw [List.reverse_append, List.dropWhile_append]
  have hne : ¬(y.reverse.dropWhile sp).isEmpty := by
    intro hcon
    exact hy (by simp [List.isEmpty_iff.mp hcon])
  rw [if_neg hne, List.reverse_append, List.reverse_reverse]

theorem joinSpace_cons_of_ne_nil (w : Text) (ws : List Text) (h : ws ≠ []) :
    joinSpace (w :: ws) = w ++ ' ' :: joinSpace ws := by
  cases ws with
  | nil => exact absurd rfl h
  | cons v ws' => rfl

theorem joinSpace_ne_nil (w : Text) (ws : List Text) (hw : w ≠ []) :
    joinSpace (w :: ws) ≠ [] := by
  cases ws with
  | nil => exact hw
  | cons v ws' => simp [joinSpace, hw]

theorem head?_joinSpace_cons (w : Text) (ws : List Text) (hw : w ≠ []) :
    (joinSpace (w :: ws)).head? = w.head? := by
  cases ws with
  | nil => rfl
  | cons v ws' =>
    show (w ++ ' ' :: joinSpace (v :: ws')).head? = w.head?
    cases w with
    | nil => exact absurd rfl hw
    | cons a w' => rfl

/-- The right-strip of a collapsed whitespace-headless list is the
space-join of its words. -/
theorem rstrip_collapse_eq_join (sp : Char → Bool) (hsp : sp ' ' = true) :
    ∀ (n : ℕ) (l : Text), l.length ≤ n →
      (∀ c, l.head? = some c → sp c = false) →
      rstripWs sp (collapseWs sp l) = joinSpace (wordsOf sp l) := by
  intro n
  induction n with
  | zero =>
    intro l hl _
    have : l = [] := List.length_eq_zero.mp (Nat.le_zero.mp hl)
    subst this
    rfl
  | succ n ih =>
    intro l hl hhead
    cases l with
    | nil => rfl
    | cons c rest =>
      simp only [List.length_cons, Nat.succ_le_succ_iff] at hl
      have hc : sp c = false := hhead c rfl
      set tw := rest.takeWhile (fun x => !sp x) with htw
      set rest' := rest.dropWhile (fun x => !sp x) with hrest'
      have htwall : ∀ d ∈ c :: tw, sp d = false := by
        intro d hd
        rcases List.mem_cons.mp hd with rfl | hd
        · exact hc
        · have := List.mem_takeWhile_imp hd
          simpa using this
      have hsplit : rest = tw ++ rest' := (List.takeWhile_append_dropWhile _ rest).symm
      have hcol : collapseWs sp (c :: rest) = (c :: tw) ++ collapseWs sp rest' := by
        rw [collapseWs_cons, if_neg (by simp [hc])]
        rw [show rest = tw ++ rest' from hsplit]
        rw [collapseWs_append_of_nonspace sp tw rest'
          (fun d hd => htwall d (List.mem_cons_of_mem c hd))]
        rfl
      have hwords : wordsOf sp (c :: rest) = (c :: tw) :: wordsOf sp rest' := by
        rw [wordsOf_cons, if_neg (by simp [hc])]
      rw [hcol, hwords]
      cases hrest'' : rest' with
      | nil =>
        simp only [collapseWs_nil, List.append_nil, wordsOf_nil]
        rw [rstrip_eq_self_of_all sp (c :: tw) htwall]
        rfl
      | cons d rest2 =>
        have hd : sp d = true := by
          have hnot := List.head?_dropWhile_not (fun x => !sp x) rest
          rw [← hrest', hrest''] at hnot
          simpa using hnot
        have hcold : collapseWs sp (d :: rest2) = ' ' :: collapseWs sp (rest2.dropWhile sp) := by
          rw [collapseWs_cons, if_pos hd]
        have hl2head : ∀ e, (rest2.dropWhile sp).head? = some e → sp e = false := by
          intro e he
          have hnot := List.head?_dropWhile_not sp rest2
          rw [he] at hnot
          exact hnot
        have hlen2 : (rest2.dropWhile sp).length ≤ n := by
          have h1 := (List.dropWhile_sublist (l := rest2) sp).length_le
          have h2 : rest'.length ≤ rest.length :=
            (List.dropWhile_sublist (l := rest) (fun x => !sp x)).length_le
          rw [hrest''] at h2
          simp only [List.length_cons] at h2
          omega
        have ihl2 := ih (rest2.dropWhile sp) hlen2 hl2head
        have hw2 : wordsOf sp (d :: rest2) = wordsOf sp (rest2.dropWhile sp) := by
          rw [show wordsOf sp (d :: rest2) = wordsOf sp rest2 by
            rw [wordsOf_cons, if_pos hd]]
          exact (wordsOf_dropWhile sp rest2).symm
        rw [hcold, hw2]
        cases hl2c : rest2.dropWhile sp with
        | nil =>
          simp only [collapseWs_nil, wordsOf_nil]
          show rstripWs sp ((c :: tw) ++ [' ']) = joinSpace [c :: tw]
          rw [rstrip_append_space sp hsp (c :: tw) htwall]
          rfl
        | cons e rest3 =>
          rw [hl2c] at ihl2 hl2head
          have he : sp e = false := hl2head e rfl
          have hwne : wordsOf sp (e :: rest3) ≠ [] := by
            rw [wordsOf_cons, if_neg (by simp [he])]
            simp
          have hjne : joinSpace (wordsOf sp (e :: rest3)) ≠ [] := by
            rcases hwne' : wordsOf sp (e :: rest3) with _ | ⟨w0, ws0⟩
            · exact absurd hwne' hwne
            · have := wordsOf_spec sp (e :: rest3) w0
                (by rw [hwne']; exact List.mem_cons_self _ _)
              exact joinSpace_ne_nil w0 ws0 this.1
          have hrsne : rstripWs sp (collapseWs sp (e :: rest3)) ≠ [] := by
            rw [ihl2]; exact hjne
          rw [show c :: tw ++ ' ' :: collapseWs sp (e :: rest3) =
            ((c :: tw) ++ [' ']) ++ collapseWs sp (e :: rest3) by simp]
          rw [rstrip_append_of_ne_nil sp ((c :: tw) ++ [' ']) (collapseWs sp (e :: rest3)) hrsne]
          rw [ihl2]
          rw [joinSpace_cons_of_ne_nil (c :: tw) (wordsOf sp (e :: rest3)) hwne]
          simp

/-- `strip(collapse(l))` is the space-join of the words of `l`: the
whitespace phase of `normalize_arabic` is exactly `" ".join(l.split())`. -/
theorem strip_collapse_eq_join (sp : Char → Bool) (hsp : sp ' ' = true) (l : Text) :
    stripWs sp (collapseWs sp l) = joinSpace (wordsOf sp l) := by
  unfold stripWs
  rw [show lstripWs sp (collapseWs sp l) = collapseWs sp (l.dropWhile sp) from
    lstrip_collapseWs sp hsp l]
  rw [rstrip_collapse_eq_join sp hsp (l.dropWhile sp).length (l.dropWhile sp) le_rfl
    (fun c hc => by
      have hnot := List.head?_dropWhile_not sp l
      rw [hc] at hnot
      exact hnot)]
  rw [wordsOf_dropWhile]

/-- The fused substitution map is idempotent. -/
theorem substChar_idem (c : Char) : substChar (substChar c) = substChar c := by
  unfold substChar
  by_cases h1 : c = 'أ' ∨ c = 'إ' ∨ c = 'آ' ∨ c = 'ا'
  · simp [h1]
  · rw [if_neg h1]
    by_cases h2 : c = 'ى'
    · simp [h2]
    · rw [if_neg h2]
      by_cases h3 : c = 'ة'
      · simp [h3]
      · rw [if_neg h3, if_neg h1, if_neg h2, if_neg h3]

theorem mem_joinSpace : ∀ (ws : List Text) (c : Char), c ∈ joinSpace ws →
    c = ' ' ∨ ∃ w ∈ ws, c ∈ w := by
  intro ws
  induction ws with
  | nil => intro c hc; simp [joinSpace] at hc
  | cons w ws ih =>
    intro c hc
    cases ws with
    | nil => exact Or.inr ⟨w, List.mem_cons_self _ _, hc⟩
    | cons v ws' =>
      rw [joinSpace_cons_of_ne_nil w (v :: ws') (by simp)] at hc
      rcases List.mem_append.mp hc with hc | hc
      · exact Or.inr ⟨w, List.mem_cons_self _ _, hc⟩
      · rcases List.mem_cons.mp hc with rfl | hc
        · exact Or.inl rfl
        · rcases ih c hc with h | ⟨u, hu, hcu⟩
          · exact Or.inl h
          · exact Or.inr ⟨u, List.mem_cons_of_mem _ hu, hcu⟩

theorem map_id_of_mem {α : Type} (f : α → α) :
    ∀ l : List α, (∀ c ∈ l, f c = c) → l.map f = l := by
  intro l
  induction l with
  | nil => intro _; rfl
  | cons c rest ih =>
    intro h
    simp only [List.map_cons, h c (List.mem_cons_self _ _), List.cons_inj_right]
    exact ih (fun d hd => h d (List.mem_cons_of_mem c hd))

/-- Splitting a space-join of nonempty whitespace-free words recovers
exactly the words. -/
theorem wordsOf_joinSpace (sp : Char → Bool) (hsp : sp ' ' = true) :
    ∀ ws : List Text, (∀ w ∈ ws, w ≠ [] ∧ ∀ c ∈ w, sp c = false) →
      wordsOf sp (joinSpace ws) = ws := by
  intro ws
  induction ws with
  | nil => intro _; rfl
  | cons w ws ih =>
    intro hgood
    obtain ⟨hwne, hwall⟩ := hgood w (List.mem_cons_self _ _)
    cases hwc : w with
    | nil => exact absurd hwc hwne
    | cons a w' =>
      have ha : sp a = false := hwall a (by rw [hwc]; exact List.mem_cons_self _ _)
      have hw' : ∀ c ∈ w', sp c = false := fun c hc =>
        hwall c (by rw [hwc]; exact List.mem_cons_of_mem a hc)
      cases ws with
      | nil =>
        show wordsOf sp (a :: w') = [a :: w']
        rw [wordsOf_cons, if_neg (by simp [ha])]
        rw [List.takeWhile_eq_self_iff.mpr (by intro x hx; simp [hw' x hx])]
        rw [List.dropWhile_eq_nil_iff.mpr (by intro x hx; simp [hw' x hx])]
        rw [wordsOf_nil]
      | cons v ws' =>
        rw [joinSpace_cons_of_ne_nil (a :: w') (v :: ws') (by simp)]
        show wordsOf sp (a :: (w' ++ ' ' :: joinSpace (v :: ws'))) = (a :: w') :: v :: ws'
        rw [wordsOf_cons, if_neg (by simp [ha])]
        rw [List.takeWhile_append_of_pos (by intro x hx; simp [hw' x hx])]
        rw [List.dropWhile_append_of_pos (by intro x hx; simp [hw' x hx])]
        rw [List.takeWhile_cons_of_neg (by simp [hsp])]
        rw [List.dropWhile_cons_of_neg (by simp [hsp])]
        have : wordsOf sp (' ' :: joinSpace (v :: ws')) = wordsOf sp (joinSpace (v :: ws')) := by
          rw [wordsOf_cons, if_pos hsp]
        rw [List.append_nil, this, ih (fun u hu => hgood u (List.mem_cons_of_mem w hu))]

/-- `normalize_arabic` rewritten as `" ".join(·.split())` of its
character-level phase. -/
theorem normalize_arabic_eq_join (wp sp : Char → Bool) (hsp : sp ' ' = true) (t : Text) :
    normalize_arabic wp sp t =
      joinSpace (wordsOf sp ((t.map substChar).filter (fun c => wp c || sp c))) :=
  strip_collapse_eq_join sp hsp _

/-- Claim C7 backbone: `normalize_arabic` is idempotent, for any whitespace
class containing the space character and any word class. -/
theorem normalize_arabic_idem (wp sp : Char → Bool) (hsp : sp ' ' = true) (t : Text) :
    normalize_arabic wp sp (normalize_arabic wp sp t) = normalize_arabic wp sp t := by
  rw [normalize_arabic_eq_join wp sp hsp t]
  set filtered := (t.map substChar).filter (fun c => wp c || sp c) with hfil
  set ws := wordsOf sp filtered with hws
  have hgood : ∀ w ∈ ws, w ≠ [] ∧ ∀ c ∈ w, sp c = false ∧ c ∈ filtered := by
    intro w hw
    exact wordsOf_spec sp filtered w hw
  have hchar : ∀ c ∈ joinSpace ws, substChar c = c ∧ (wp c || sp c) = true := by
    intro c hc
    rcases mem_joinSpace ws c hc with rfl | ⟨w, hw, hcw⟩
    · constructor
      · decide
      · simp [hsp]
    · obtain ⟨hsp', hmem⟩ := (hgood w hw).2 c hcw
      have hkeep := List.mem_filter.mp (hfil ▸ hmem)
      constructor
      · obtain ⟨x, _, hx⟩ := List.mem_map.mp hkeep.1
        rw [← hx, substChar_idem]
      · exact hkeep.2
  show normalize_arabic wp sp (joinSpace ws) = joinSpace ws
  unfold normalize_arabic
  rw [map_id_of_mem substChar (joinSpace ws) (fun c hc => (hchar c hc).1)]
  rw [List.filter_eq_self.mpr (fun c hc => (hchar c hc).2)]
  rw [strip_collapse_eq_join sp hsp]
  rw [wordsOf_joinSpace sp hsp ws (fun w hw =>
    ⟨(hgood w hw).1, fun c hc => ((hgood w hw).2 c hc).1⟩)]

theorem lcp_le_left : ∀ u v : Text, lcp u v ≤ u.length := by
  intro u
  induction u with
  | nil => intro v; cases v <;> simp [lcp]
  | cons a as ih =>
    intro v
    cases v with
    | nil => simp [lcp]
    | cons b bs =>
      simp only [lcp, List.length_cons]
      split
      · exact Nat.succ_le_succ (ih bs)
      · omega

theorem lcp_le_right : ∀ u v : Text, lcp u v ≤ v.length := by
  intro u
  induction u with
  | nil => intro v; cases v <;> simp [lcp]
  | cons a as ih =>
    intro v
    cases v with
    | nil => simp [lcp]
    | cons b bs =>
      simp only [lcp, List.length_cons]
      split
      · exact Nat.succ_le_succ (ih bs)
      · omega

theorem lcp_self : ∀ u : Text, lcp u u = u.length := by
  intro u
  induction u with
  | nil => rfl
  | cons a as ih => simp [lcp, ih]

theorem runLenP_le_left (P : Char → Bool) : ∀ u v : Text, runLenP P u v ≤ u.length := by
  intro u
  induction u with
  | nil => intro v; cases v <;> simp [runLenP]
  | cons a as ih =>
    intro v
    cases v with
    | nil => simp [runLenP]
    | cons b bs =>
      simp only [runLenP, List.length_cons]
      split
      · exact Nat.succ_le_succ (ih bs)
      · omega

theorem runLenP_le_right (P : Char → Bool) : ∀ u v : Text, runLenP P u v ≤ v.length := by
  intro u
  induction u with
  | nil => intro v; cases v <;> simp [runLenP]
  | cons a as ih =>
    intro v
    cases v with
    | nil => simp [runLenP]
    | cons b bs =>
      simp only [runLenP, List.length_cons]
      split
      · exact Nat.succ_le_succ (ih bs)
      · omega

/-- A run against an arbitrary suffix is no longer than the diagonal run
of the `b`-side suffix with itself. -/
theorem runLenP_le_diag_right (P : Char → Bool) :
    ∀ u v : Text, runLenP P u v ≤ runLenP P v v := by
  intro u
  induction u with
  | nil => intro v; cases v <;> simp [runLenP]
  | cons a as ih =>
    intro v
    cases v with
    | nil => simp [runLenP]
    | cons b bs =>
      simp only [runLenP]
      by_cases h1 : a = b
      · subst h1
        by_cases h2 : P a
        · rw [if_neg (by simp [h2])]
          exact Nat.zero_le _
        · rw [if_pos (by simp [h2]), if_pos (by simp [h2])]
          exact Nat.succ_le_succ (ih bs)
      · rw [if_neg (by simp [h1])]
        exact Nat.zero_le _

/-- A run against an arbitrary suffix is no longer than the diagonal run
of the `a`-side suffix with itself (the matched characters are equal, so
the junk test gives the same answers). -/
theorem runLenP_le_diag_left (P : Char → Bool) :
    ∀ u v : Text, runLenP P u v ≤ runLenP P u u := by
  intro u
  induction u with
  | nil => intro v; cases v <;> simp [runLenP]
  | cons a as ih =>
    intro v
    cases v with
    | nil => simp [runLenP]
    | cons b bs =>
      simp only [runLenP]
      by_cases h1 : a = b
      · subst h1
        by_cases h2 : P a
        · rw [if_neg (by simp [h2])]
          exact Nat.zero_le _
        · rw [if_pos (by simp [h2]), if_pos (by simp [h2])]
          exact Nat.succ_le_succ (ih bs)
      · rw [if_neg (by simp [h1])]
        exact Nat.zero_le _

theorem foldl_inv {α β : Type} (f : α → β → α) (Inv : α → Prop) :
    ∀ (l : List β) (acc : α), Inv acc → (∀ x ∈ l, ∀ a, Inv a → Inv (f a x)) →
      Inv (l.foldl f acc) := by
  intro l
  induction l with
  | nil => intro acc h _; exact h
  | cons x xs ih =>
    intro acc h hstep
    exact ih (f acc x) (hstep x (List.mem_cons_self _ _) acc h)
      (fun y hy a ha => hstep y (List.mem_cons_of_mem x hy) a ha)

theorem runLenP_nil_right (P : Char → Bool) (u : Text) : runLenP P u [] = 0 := by
  cases u <;> rfl

theorem lcp_nil_right (u : Text) : lcp u [] = 0 := by
  cases u <;> rfl

theorem bbStep_bounded (P : Char → Bool) (a b : Text) (i : ℕ) (acc : Block) (j : ℕ)
    (hi : i ≤ a.length) (hj : j ≤ b.length) (hacc : blockBounded a b acc) :
    blockBounded a b (bbStep P a b i acc j) := by
  unfold bbStep
  dsimp only
  split
  · have h1 := runLenP_le_left P (a.drop i) (b.drop j)
    have h2 := runLenP_le_right P (a.drop i) (b.drop j)
    rw [List.length_drop] at h1 h2
    exact ⟨by simp only; omega, by simp only; omega⟩
  · exact hacc

theorem bbInner_bounded (P : Char → Bool) (a b : Text) (acc : Block) (i : ℕ)
    (hi : i ≤ a.length) (hacc : blockBounded a b acc) :
    blockBounded a b (bbInner P a b acc i) := by
  unfold bbInner
  refine foldl_inv (bbStep P a b i) (blockBounded a b) _ acc hacc ?_
  intro j hj acc' hacc'
  exact bbStep_bounded P a b i acc' j hi (Nat.lt_succ_iff.mp (List.mem_range.mp hj)) hacc'

theorem bestBlockRaw_bounded (P : Char → Bool) (a b : Text) :
    blockBounded a b (bestBlockRaw P a b) := by
  unfold bestBlockRaw
  refine foldl_inv (bbInner P a b) (blockBounded a b) _ _ ⟨by simp, by simp⟩ ?_
  intro i hi acc hacc
  exact bbInner_bounded P a b acc i (Nat.lt_succ_iff.mp (List.mem_range.mp hi)) hacc

theorem extendBlock_bounded (a b : Text) (blk : Block) (h : blockBounded a b blk) :
    blockBounded a b (extendBlock a b blk) := by
  obtain ⟨h1, h2⟩ := h
  unfold extendBlock
  constructor
  · simp only
    have hb := lcp_le_left (a.take blk.i).reverse (b.take blk.j).reverse
    have hf := lcp_le_left (a.drop (blk.i + blk.size)) (b.drop (blk.j + blk.size))
    rw [List.length_reverse, List.length_take] at hb
    rw [List.length_drop] at hf
    omega
  · simp only
    have hb := lcp_le_right (a.take blk.i).reverse (b.take blk.j).reverse
    have hf := lcp_le_right (a.drop (blk.i + blk.size)) (b.drop (blk.j + blk.size))
    rw [List.length_reverse, List.length_take] at hb
    rw [List.length_drop] at hf
    omega

theorem findLongestMatch_bounded (P : Char → Bool) (a b : Text) :
    blockBounded a b (findLongestMatch P a b) :=
  extendBlock_bounded a b _ (bestBlockRaw_bounded P a b)

theorem matchTotalF_nil (P : Char → Bool) : ∀ f : ℕ, matchTotalF P f [] [] = 0 := by
  intro f
  cases f <;> rfl

theorem matchTotalF_fuel (P : Char → Bool) :
    ∀ (f g : ℕ) (a b : Text), a.length + b.length ≤ f → a.length + b.length ≤ g →
      matchTotalF P f a b = matchTotalF P g a b := by
  intro f
  induction f with
  | zero =>
    intro g a b hf _
    have ha : a = [] := List.length_eq_zero.mp (by omega)
    have hb : b = [] := List.length_eq_zero.mp (by omega)
    subst ha; subst hb
    rw [matchTotalF_nil, matchTotalF_nil]
  | succ f ih =>
    intro g a b hf hg
    by_cases hab : a.length + b.length = 0
    · have ha : a = [] := List.length_eq_zero.mp (by omega)
      have hb : b = [] := List.length_eq_zero.mp (by omega)
      subst ha; subst hb
      rw [matchTotalF_nil, matchTotalF_nil]
    · cases g with
      | zero => omega
      | succ g =>
        simp only [matchTotalF]
        obtain ⟨hb1, hb2⟩ := findLongestMatch_bounded P a b
        split
        · rfl
        · rename_i hsz
          have hszpos : 1 ≤ (findLongestMatch P a b).size := Nat.one_le_iff_ne_zero.mpr hsz
          have hl1 : (a.take (findLongestMatch P a b).i).length +
              (b.take (findLongestMatch P a b).j).length ≤ f := by
            rw [List.length_take, List.length_take]
            omega
          have hl1' : (a.take (findLongestMatch P a b).i).length +
              (b.take (findLongestMatch P a b).j).length ≤ g := by
            rw [List.length_take, List.length_take]
            omega
          have hl2 : (a.drop ((findLongestMatch P a b).i + (findLongestMatch P a b).size)).length +
              (b.drop ((findLongestMatch P a b).j + (findLongestMatch P a b).size)).length ≤ f := by
            rw [List.length_drop, List.length_drop]
            omega
          have hl2' : (a.drop ((findLongestMatch P a b).i + (findLongestMatch P a b).size)).length +
              (b.drop ((findLongestMatch P a b).j + (findLongestMatch P a b).size)).length ≤ g := by
            rw [List.length_drop, List.length_drop]
            omega
          rw [ih g _ _ hl1 hl1', ih g _ _ hl2 hl2']

/-- Inner-scan invariant on identical strings: the running best block stays
on the diagonal, because a run at `(i, j)` is dominated by the diagonal
runs at `i` and at `j`, which the scan has already seen. -/
theorem bbInner_diag (P : Char → Bool) (x : Text) :
    ∀ (m i : ℕ) (acc : Block), acc.i = acc.j →
      (∀ q, q < i → runLenP P (x.drop q) (x.drop q) ≤ acc.size) →
      ((List.range m).foldl (bbStep P x x i) acc).i =
        ((List.range m).foldl (bbStep P x x i) acc).j ∧
      (∀ q, q < i → runLenP P (x.drop q) (x.drop q) ≤
        ((List.range m).foldl (bbStep P x x i) acc).size) ∧
      (i < m → runLenP P (x.drop i) (x.drop i) ≤
        ((List.range m).foldl (bbStep P x x i) acc).size) := by
  intro m
  induction m with
  | zero =>
    intro i acc hdiag hprev
    exact ⟨hdiag, hprev, fun h => absurd h (Nat.not_lt_zero i)⟩
  | succ m ih =>
    intro i acc hdiag hprev
    rw [List.range_succ, List.foldl_append, List.foldl_cons, List.foldl_nil]
    obtain ⟨ih1, ih2, ih3⟩ := ih i acc hdiag hprev
    set r0 := (List.range m).foldl (bbStep P x x i) acc with hr0
    unfold bbStep
    dsimp only
    split
    · rename_i hupd
      have hij : i = m := by
        rcases Nat.lt_trichotomy i m with hlt | heq | hgt
        · have h1 := runLenP_le_diag_left P (x.drop i) (x.drop m)
          have h2 := ih3 hlt
          omega
        · exact heq
        · have h1 := runLenP_le_diag_right P (x.drop i) (x.drop m)
          have h2 := ih2 m hgt
          omega
      subst hij
      refine ⟨rfl, fun q hq => le_trans (ih2 q hq) (le_of_lt hupd), fun _ => le_rfl⟩
    · rename_i hupd
      refine ⟨ih1, ih2, fun hi => ?_⟩
      rcases Nat.lt_or_ge i m with hlt | hge
      · exact ih3 hlt
      · have him : i = m := by omega
        subst him
        have h1 := runLenP_le_diag_right P (x.drop i) (x.drop i)
        omega

/-- Outer-scan invariant on identical strings. -/
theorem bestBlockRaw_diag_aux (P : Char → Bool) (x : Text) :
    ∀ n, n ≤ x.length + 1 →
      ((List.range n).foldl (bbInner P x x) ⟨0, 0, 0⟩).i =
        ((List.range n).foldl (bbInner P x x) ⟨0, 0, 0⟩).j ∧
      (∀ q, q < n → runLenP P (x.drop q) (x.drop q) ≤
        ((List.range n).foldl (bbInner P x x) ⟨0, 0, 0⟩).size) := by
  intro n
  induction n with
  | zero => exact fun _ => ⟨rfl, fun q hq => absurd hq (Nat.not_lt_zero q)⟩
  | succ n ih =>
    intro hn
    obtain ⟨ih1, ih2⟩ := ih (by omega)
    rw [List.range_succ, List.foldl_append, List.foldl_cons, List.foldl_nil]
    unfold bbInner
    obtain ⟨d1, d2, d3⟩ := bbInner_diag P x (x.length + 1) n
      ((List.range n).foldl (bbInner P x x) ⟨0, 0, 0⟩) ih1 ih2
    refine ⟨d1, fun q hq => ?_⟩
    rcases Nat.lt_or_ge q n with hlt | hge
    · exact d2 q hlt
    · have hq' : q = n := by omega
      subst hq'
      exact d3 (by omega)

/-- On identical strings the raw best block lies on the diagonal. -/
theorem bestBlockRaw_diag (P : Char → Bool) (x : Text) :
    (bestBlockRaw P x x).i = (bestBlockRaw P x x).j :=
  (bestBlockRaw_diag_aux P x (x.length + 1) le_rfl).1

/-- On identical strings the extension loops blow the block up to the
whole string. -/
theorem findLongestMatch_self (P : Char → Bool) (x : Text) :
    findLongestMatch P x x = ⟨0, 0, x.length⟩ := by
  unfold findLongestMatch extendBlock
  dsimp only
  have hdiag := bestBlockRaw_diag P x
  obtain ⟨hb1, hb2⟩ := bestBlockRaw_bounded P x x
  set blk := bestBlockRaw P x x with hblk
  rw [← hdiag]
  have hi : blk.i ≤ x.length := by omega
  have hback : lcp (x.take blk.i).reverse (x.take blk.i).reverse = blk.i := by
    rw [lcp_self, List.length_reverse, List.length_take]
    omega
  have hfwd : lcp (x.drop (blk.i + blk.size)) (x.drop (blk.i + blk.size)) =
      x.length - (blk.i + blk.size) := by
    rw [lcp_self, List.length_drop]
  rw [hback, hfwd]
  have : blk.i - blk.i = 0 := by omega
  rw [this]
  have : blk.size + blk.i + (x.length - (blk.i + blk.size)) = x.length := by omega
  rw [this]

/-- On identical strings every character is matched. -/
theorem matchTotal_self (P : Char → Bool) (x : Text) :
    matchTotal P x x = x.length := by
  cases hx : x with
  | nil => rfl
  | cons c rest =>
    unfold matchTotal
    rw [← hx]
    have hlen : x.length = rest.length + 1 := by rw [hx]; rfl
    rw [show x.length + x.length = (x.length + x.length - 1) + 1 by omega]
    simp only [matchTotalF, findLongestMatch_self P x]
    rw [if_neg (by simp [hlen])]
    simp [List.take_zero, List.drop_length, matchTotalF_nil]

/-- `ratio(x, x) = 1` (difflib's autojunk does not break the identity: the
non-junk extension loops always recover the full diagonal). -/
theorem seqRatio_self (x : Text) : seqRatio x x = 1 := by
  unfold seqRatio
  split
  · rfl
  · rename_i hne
    rw [matchTotal_self]
    have hx : (0 : ℚ) < x.length := by
      have h0 : 0 < x.length := by omega
      exact_mod_cast h0
    have hne' : ((x.length : ℚ) + x.length) ≠ 0 := by linarith
    rw [div_eq_one_iff_eq hne']
    ring

/-- No character of a nonempty string matches the empty string. -/
theorem matchTotal_nil_right (P : Char → Bool) (x : Text) : matchTotal P x [] = 0 := by
  unfold matchTotal
  cases hf : x.length + [].length with
  | zero => rfl
  | succ f =>
    simp only [matchTotalF]
    have hraw : bestBlockRaw P x [] = ⟨0, 0, 0⟩ := by
      unfold bestBlockRaw
      refine foldl_inv (bbInner P x []) (fun r => r = ⟨0, 0, 0⟩) _ _ rfl ?_
      intro i _ acc hacc
      unfold bbInner
      refine foldl_inv (bbStep P x [] i) (fun r => r = ⟨0, 0, 0⟩) _ _ hacc ?_
      intro j _ acc' hacc'
      unfold bbStep
      dsimp only
      rw [show ([] : Text).drop j = [] from List.drop_nil, runLenP_nil_right]
      rw [if_neg (by omega)]
      exact hacc'
    have hflm : findLongestMatch P x [] = ⟨0, 0, 0⟩ := by
      unfold findLongestMatch extendBlock
      rw [hraw]
      dsimp only
      rw [show ([] : Text).take 0 = [] from rfl, List.reverse_nil, lcp_nil_right]
      rw [show ([] : Text).drop 0 = [] from rfl, lcp_nil_right]
    rw [hflm]
    simp

/-- `ratio(x, "") = 0` for nonempty `x`. -/
theorem seqRatio_nil_right (x : Text) (hx : x ≠ []) : seqRatio x [] = 0 := by
  unfold seqRatio
  rw [if_neg (by
    simp only [List.length_nil, Nat.add_zero]
    exact fun h => hx (List.length_eq_zero.mp h))]
  rw [matchTotal_nil_right]
  simp

theorem sanity_sim_asym_fwd : similarity (str "pqwrsvz") (str "rszpq") = 1/3 := by decide

theorem sanity_sim_asym_rev : similarity (str "rszpq") (str "pqwrsvz") = 1/2 := by decide

theorem sanity_ratio_r5 : seqRatio (str "rrrrr") (str "rrrrrzzzz") = 5/7 := by decide

theorem sanity_ratio_r6 : seqRatio (str "r rrrrr") (str "rrrrrzzzz") = 5/8 := by decide

theorem sanity_ratio_p : seqRatio (str "ppp") (str "pppvv") = 3/4 := by decide

theorem sanity_ratio_q : seqRatio (str "qqq r") (str "qqqww") = 3/5 := by decide

theorem sanity_ratio_r1 : seqRatio (str "r") (str "rrrrrzzzz") = 1/5 := by decide

theorem sanity_ratio_pq : seqRatio (str "ppp qqq") (str "pppvv") = 1/2 := by decide

theorem sanity_normalize_fix : normalize_arabic pyWord pySpace (str "qqq r") = str "qqq r" := by decide

theorem sanity_c1_pipeline :
    (apply_cascade_recovery c1Segments c1Ayahs c1Results [] (7/10) 2).map
      (fun r => r.similarity_score) = [3/4, 3/4, 5/8, 5/7, 5/7] := by decide

theorem sanity_c2_recover :
    recover_cascade_with_resync c2Segments c2Ayahs c2Results 0 2 [] 1 =
      some [⟨c2Ayah0, 0, 1, str "ppp", 1/2, false⟩,
            ⟨c2Ayah1, 1, 2, str "q", 1/5, false⟩] := by decide

/-! ## Claim C6 — similarity scorer properties -/
/-- Claim C6, counterexample: `similarity` is **not** symmetric.
`SequenceMatcher` picks the first longest block (earliest in `a`, then in
`b`); swapping the arguments changes which tie is taken and how much of
the remainder can still match:
`ratio("pqwrsvz","rszpq") = 1/3` but `ratio("rszpq","pqwrsvz") = 1/2`. -/
theorem claim_C6_counterexample :
    similarity (str "pqwrsvz") (str "rszpq") ≠
      similarity (str "rszpq") (str "pqwrsvz") := by decide

/-- Claim C6, amended: of the three claimed properties, the identity
`similarity(x, x) = 1` and the empty case `similarity(x, "") = 0` for
nonempty `x` do hold; symmetry fails (see the counterexample). -/
theorem claim_C6_amended (x : Text) (hx : x ≠ []) :
    similarity x x = 1 ∧ similarity x [] = 0 :=
  ⟨seqRatio_self x, seqRatio_nil_right x hx⟩

theorem claim_C6_amended_witness :
    str "ab" ≠ [] ∧ (similarity (str "ab") (str "ab") = 1 ∧
      similarity (str "ab") [] = 0) :=
  ⟨by decide, claim_C6_amended (str "ab") (by decide)⟩

/-! ## Claim C7 — normalizer idempotence -/
/-- Claim C7: `normalize_arabic` is idempotent, for every word class and
every whitespace class that contains the space character (Python's `\s`
does). -/
theorem claim_C7_normalize_idempotent (wp sp : Char → Bool)
    (hsp : sp ' ' = true) (x : Text) :
    normalize_arabic wp sp (normalize_arabic wp sp x) = normalize_arabic wp sp x :=
  normalize_arabic_idem wp sp hsp x

theorem claim_C7_witness :
    pySpace ' ' = true ∧
    normalize_arabic pyWord pySpace
        (normalize_arabic pyWord pySpace (str " ab!  cd ")) =
      normalize_arabic pyWord pySpace (str " ab!  cd ") :=
  ⟨by decide, claim_C7_normalize_idempotent pyWord pySpace (by decide) (str " ab!  cd ")⟩

/-! ## Claim C8 — `Aligner.align` with nonempty segments, empty āyāt -/
/-- Claim C8, counterexample: with a nonempty segment list and an empty
āya list, `Aligner.align` returns the plain empty result list — no
`InvalidInput` error is raised anywhere in its body.  (The backends are
irrelevant: the guard fires first; any instantiation gives the same
result.) -/
theorem claim_C8_counterexample :
    aligner_align (fun _ _ _ => []) (fun _ _ _ => []) (fun r _ _ => r)
        (fun r => r) AlignmentStrategy.hybrid (17/20) true true
        [defaultSegment] [] [] = Except.ok [] ∧
      Except.ok ([] : List AlignmentResult) ≠
        Except.error AlignError.invalidInput := by
  exact ⟨rfl, fun h => Except.noConfusion h⟩

/-- Claim C8, amended: with an empty āya list (whatever the segments),
`align` returns `ok []` immediately — no error is surfaced and no partial
results are produced; the first statement of the body
(`if not segments or not ayahs: return []`) short-circuits everything
else. -/
theorem claim_C8_amended (dpAligner greedyAligner : AlignerBackend)
    (zoneRealign : List AlignmentResult → List Segment → List Ayah →
      List AlignmentResult)
    (overlapFix : List AlignmentResult → List AlignmentResult)
    (strategy : AlignmentStrategy) (quality_threshold : ℚ)
    (fix_drift fix_overlaps : Bool) (segments : List Segment)
    (silences_ms : List (ℤ × ℤ)) :
    aligner_align dpAligner greedyAligner zoneRealign overlapFix strategy
      quality_threshold fix_drift fix_overlaps segments [] silences_ms =
      Except.ok [] := by
  unfold aligner_align
  rw [if_pos (Or.inr rfl)]

/-! ## Claim C10 — `_try_split_and_restitch` frame property -/
/-- Claim C10: whenever `_try_split_and_restitch` returns a result, it has
the same āya, start time, end time and overlap flag as the DP result it
was given (`ayah` is the DP result's āya at every call site), and its
similarity exceeds the DP similarity by more than 0.05; only the
transcribed text and the similarity score are recomputed. -/
theorem claim_C10_split_frame (segments : List Segment) (ayah : Ayah)
    (dp_result : AlignmentResult) (silences_ms : List (ℤ × ℤ))
    (r : AlignmentResult)
    (h : try_split_and_restitch segments ayah dp_result silences_ms = some r)
    (hay : ayah = dp_result.ayah) :
    r.ayah = dp_result.ayah ∧ r.start_time = dp_result.start_time ∧
      r.end_time = dp_result.end_time ∧
      r.overlap_detected = dp_result.overlap_detected ∧
      dp_result.similarity_score + 1/20 < r.similarity_score := by
  simp only [try_split_and_restitch] at h
  split at h
  · exact absurd h (by simp)
  · split at h
    · exact absurd h (by simp)
    · split at h
      · exact absurd h (by simp)
      · split at h
        · rename_i hcmp
          rw [Option.some.injEq] at h
          subst h
          exact ⟨hay, rfl, rfl, rfl, of_decide_eq_true hcmp⟩
        · exact absurd h (by simp)

theorem claim_C10_split_frame_witness :
    try_split_and_restitch c10Segments c10Ayah c10DpResult [(1000, 2000)] =
        some c10Expected ∧
      (c10Expected.ayah = c10DpResult.ayah ∧
        c10Expected.start_time = c10DpResult.start_time ∧
        c10Expected.end_time = c10DpResult.end_time ∧
        c10Expected.overlap_detected = c10DpResult.overlap_detected ∧
        c10DpResult.similarity_score + 1/20 < c10Expected.similarity_score) :=
  ⟨by decide, claim_C10_split_frame c10Segments c10Ayah c10DpResult
    [(1000, 2000)] c10Expected (by decide) rfl⟩

/-! ## Claim C5 — `remove_overlap` -/
/-- Invariant of the token scan: the kept tokens are a sublist of the
input, the counter never grows, and for every normalized value the number
of dropped tokens with that value is exactly the counter decrease. -/
theorem removeOverlapScan_spec (wp sp : Char → Bool) :
    ∀ (ws : List Text) (c : Text → ℕ),
      (removeOverlapScan wp sp c ws).2.Sublist ws ∧
      ∀ v : Text,
        (removeOverlapScan wp sp c ws).1 v ≤ c v ∧
        (ws.filter (fun w => normalize_arabic wp sp w = v)).length =
          ((removeOverlapScan wp sp c ws).2.filter
            (fun w => normalize_arabic wp sp w = v)).length +
          (c v - (removeOverlapScan wp sp c ws).1 v) := by
  intro ws
  induction ws with
  | nil =>
    intro c
    exact ⟨List.Sublist.refl _, fun v => ⟨le_rfl, by simp [removeOverlapScan]⟩⟩
  | cons w rest ih =>
    intro c
    by_cases hc : 0 < c (normalize_arabic wp sp w)
    · have hrec := ih (fun u => if u = normalize_arabic wp sp w then c u - 1 else c u)
      constructor
      · show (removeOverlapScan wp sp c (w :: rest)).2.Sublist (w :: rest)
        rw [show removeOverlapScan wp sp c (w :: rest) =
          removeOverlapScan wp sp
            (fun u => if u = normalize_arabic wp sp w then c u - 1 else c u) rest by
          simp [removeOverlapScan, hc]]
        exact hrec.1.trans (List.sublist_cons_self w rest)
      · intro v
        obtain ⟨hle, hcount⟩ := hrec.2 v
        rw [show removeOverlapScan wp sp c (w :: rest) =
          removeOverlapScan wp sp
            (fun u => if u = normalize_arabic wp sp w then c u - 1 else c u) rest by
          simp [removeOverlapScan, hc]]
        by_cases hv : v = normalize_arabic wp sp w
        · subst hv
          simp only [eq_self_iff_true, if_true] at hle hcount
          constructor
          · omega
          · rw [List.filter_cons]
            rw [if_pos (by simp)]
            simp only [List.length_cons]
            omega
        · simp only [if_neg hv] at hle hcount
          constructor
          · exact hle
          · rw [List.filter_cons, if_neg (by simpa using fun hcon => hv hcon.symm)]
            exact hcount
    · have hrec := ih c
      have hstep : removeOverlapScan wp sp c (w :: rest) =
          ((removeOverlapScan wp sp c rest).1,
            w :: (removeOverlapScan wp sp c rest).2) := by
        simp [removeOverlapScan, hc]
      constructor
      · rw [hstep]
        exact List.Sublist.cons₂ w hrec.1
      · intro v
        obtain ⟨hle, hcount⟩ := hrec.2 v
        rw [hstep]
        refine ⟨hle, ?_⟩
        by_cases hv : normalize_arabic wp sp w = v
        · rw [List.filter_cons, if_pos (by simpa using hv),
            List.filter_cons, if_pos (by simpa using hv)]
          simp only [List.length_cons]
          omega
          
        · rw [List.filter_cons, if_neg (by simpa using hv),
            List.filter_cons, if_neg (by simpa using hv)]
          exact hcount

/-- Claim C5, amended: `remove_overlap` keeps an order-preserving sublist
of `text2`'s tokens, and the dropped tokens are counted against the
multiset of **all** tokens of `normalize_arabic(text1)` (not a suffix, and
the dropped tokens need not form a prefix of `text2`): for every
normalized value, the number of dropped tokens with that value is at most
its multiplicity in `normalize_arabic(text1)`'s token list. -/
theorem claim_C5_amended (wp sp : Char → Bool) (text1 text2 : Text) :
    (removeOverlapScan wp sp
        (counterOf (wordsOf sp (normalize_arabic wp sp text1)))
        (wordsOf sp text2)).2.Sublist (wordsOf sp text2) ∧
    ∀ v : Text,
      ((wordsOf sp text2).filter (fun w => normalize_arabic wp sp w = v)).length ≤
        ((removeOverlapScan wp sp
            (counterOf (wordsOf sp (normalize_arabic wp sp text1)))
            (wordsOf sp text2)).2.filter
          (fun w => normalize_arabic wp sp w = v)).length +
        counterOf (wordsOf sp (normalize_arabic wp sp text1)) v := by
  obtain ⟨hsub, hcnt⟩ := removeOverlapScan_spec wp sp (wordsOf sp text2)
    (counterOf (wordsOf sp (normalize_arabic wp sp text1)))
  refine ⟨hsub, fun v => ?_⟩
  obtain ⟨hle, hcount⟩ := hcnt v
  omega

/-- Claim C5, counterexample: the dropped tokens do **not** form a prefix
of `text2`'s tokens.  With `text1 = "a"`, `text2 = "c a"` the code keeps
`"c"` (position 1) and drops `"a"` (position 2): the kept tokens are not
`drop k` of the tokens of `text2` for any `k`, and the result text is
`"a c"` rather than the prefix-drop result `"a c a"`. -/
theorem claim_C5_counterexample :
    remove_overlap pyWord pySpace (str "a") (str "c a") = (str "a c", true) ∧
    ¬ ∃ k : ℕ,
      (removeOverlapScan pyWord pySpace
          (counterOf (wordsOf pySpace (normalize_arabic pyWord pySpace (str "a"))))
          (wordsOf pySpace (str "c a"))).2 =
        (wordsOf pySpace (str "c a")).drop k := by
  constructor
  · decide
  · rintro ⟨k, hk⟩
    have hwords : wordsOf pySpace (str "c a") = [str "c", str "a"] := by decide
    have hclean : (removeOverlapScan pyWord pySpace
        (counterOf (wordsOf pySpace (normalize_arabic pyWord pySpace (str "a"))))
        (wordsOf pySpace (str "c a"))).2 = [str "c"] := by decide
    rw [hclean, hwords] at hk
    match k, hk with
    | 0, hk => exact absurd hk (by decide)
    | 1, hk => exact absurd hk (by decide)
    | (n + 2), hk =>
      rw [List.drop_eq_nil_of_le (by simp)] at hk
      exact absurd hk (by decide)

/-! ## Claim C4 — `HybridStats` category counts -/
/-- Each `statsBump` increments exactly one category counter. -/
theorem statsBump_sum (st : HybridStats) (quality_threshold : ℚ)
    (choice : AlignmentResult × HybridSource) :
    (statsBump st quality_threshold choice).dp_kept +
      (statsBump st quality_threshold choice).old_fallback +
      (statsBump st quality_threshold choice).split_improved +
      (statsBump st quality_threshold choice).still_low =
    st.dp_kept + st.old_fallback + st.split_improved + st.still_low + 1 := by
  rcases choice with ⟨r, src⟩
  cases src with
  | dp =>
    unfold statsBump
    by_cases hq : decide (r.similarity_score < quality_threshold) = true
    · rw [if_pos hq]
      dsimp only
      omega
    · rw [if_neg hq]
      dsimp only
      omega
  | split =>
    unfold statsBump
    dsimp only
    omega
  | old =>
    unfold statsBump
    dsimp only
    omega

/-- The main loop adds one result and one category count per DP result. -/
theorem hybrid_fold_counts (segments : List Segment)
    (silences_ms : List (ℤ × ℤ)) (quality_threshold : ℚ)
    (long_ayah_words : ℕ) (long_ayah_duration : ℚ)
    (old_by_ayah : List (ℕ × AlignmentResult)) :
    ∀ (l : List AlignmentResult) (acc : List AlignmentResult) (st : HybridStats),
      ((l.foldl (hybridStep segments silences_ms quality_threshold
          long_ayah_words long_ayah_duration old_by_ayah) (acc, st)).2.dp_kept +
        (l.foldl (hybridStep segments silences_ms quality_threshold
          long_ayah_words long_ayah_duration old_by_ayah) (acc, st)).2.old_fallback +
        (l.foldl (hybridStep segments silences_ms quality_threshold
          long_ayah_words long_ayah_duration old_by_ayah) (acc, st)).2.split_improved +
        (l.foldl (hybridStep segments silences_ms quality_threshold
          long_ayah_words long_ayah_duration old_by_ayah) (acc, st)).2.still_low =
          st.dp_kept + st.old_fallback + st.split_improved + st.still_low + l.length) ∧
      ((l.foldl (hybridStep segments silences_ms quality_threshold
          long_ayah_words long_ayah_duration old_by_ayah) (acc, st)).1.length =
        acc.length + l.length) := by
  intro l
  induction l with
  | nil => intro acc st; exact ⟨by simp, by simp⟩
  | cons x xs ih =>
    intro acc st
    rw [List.foldl_cons]
    have hstep : hybridStep segments silences_ms quality_threshold
        long_ayah_words long_ayah_duration old_by_ayah (acc, st) x =
        ((hybridStep segments silences_ms quality_threshold
          long_ayah_words long_ayah_duration old_by_ayah (acc, st) x).1,
        (hybridStep segments silences_ms quality_threshold
          long_ayah_words long_ayah_duration old_by_ayah (acc, st) x).2) := rfl
    obtain ⟨ih1, ih2⟩ := ih (hybridStep segments silences_ms quality_threshold
      long_ayah_words long_ayah_duration old_by_ayah (acc, st) x).1
      (hybridStep segments silences_ms quality_threshold
        long_ayah_words long_ayah_duration old_by_ayah (acc, st) x).2
    rw [hstep] at ih1 ih2 ⊢
    constructor
    · rw [ih1]
      have : (hybridStep segments silences_ms quality_threshold
            long_ayah_words long_ayah_duration old_by_ayah (acc, st) x).2.dp_kept +
          (hybridStep segments silences_ms quality_threshold
            long_ayah_words long_ayah_duration old_by_ayah (acc, st) x).2.old_fallback +
          (hybridStep segments silences_ms quality_threshold
            long_ayah_words long_ayah_duration old_by_ayah (acc, st) x).2.split_improved +
          (hybridStep segments silences_ms quality_threshold
            long_ayah_words long_ayah_duration old_by_ayah (acc, st) x).2.still_low =
          st.dp_kept + st.old_fallback + st.split_improved + st.still_low + 1 := by
        unfold hybridStep
        split
        · simp only
          omega
        · exact statsBump_sum st quality_threshold _
      rw [this]
      simp only [List.length_cons]
      omega
    · rw [ih2]
      have : (hybridStep segments silences_ms quality_threshold
            long_ayah_words long_ayah_duration old_by_ayah (acc, st) x).1.length =
          acc.length + 1 := by
        unfold hybridStep
        split
        · simp
        · simp
      rw [this]
      simp only [List.length_cons]
      omega

/-- Claim C4, amended: the four category counters always sum to the number
of **returned results** (which equals `total_ayahs` exactly when the DP
backend returns one result per āya). -/
theorem claim_C4_amended (dpAligner greedyAligner : AlignerBackend)
    (segments : List Segment) (ayahs : List Ayah)
    (silences_ms : List (ℤ × ℤ)) (quality_threshold : ℚ)
    (long_ayah_words : ℕ) (long_ayah_duration : ℚ) :
    (align_segments_hybrid dpAligner greedyAligner segments ayahs silences_ms
        quality_threshold long_ayah_words long_ayah_duration).2.dp_kept +
      (align_segments_hybrid dpAligner greedyAligner segments ayahs silences_ms
        quality_threshold long_ayah_words long_ayah_duration).2.old_fallback +
      (align_segments_hybrid dpAligner greedyAligner segments ayahs silences_ms
        quality_threshold long_ayah_words long_ayah_duration).2.split_improved +
      (align_segments_hybrid dpAligner greedyAligner segments ayahs silences_ms
        quality_threshold long_ayah_words long_ayah_duration).2.still_low =
    (align_segments_hybrid dpAligner greedyAligner segments ayahs silences_ms
      quality_threshold long_ayah_words long_ayah_duration).1.length := by
  simp only [align_segments_hybrid]
  split
  · simp
  · split
    · simp
    · obtain ⟨h1, h2⟩ := hybrid_fold_counts segments silences_ms quality_threshold
        long_ayah_words long_ayah_duration
        (buildOldByAyah (greedyAligner segments ayahs silences_ms))
        (dpAligner segments ayahs silences_ms) [] ⟨ayahs.length, 0, 0, 0, 0⟩
      simp only at h1 h2
      rw [h1, h2]
      simp

/-- Claim C4, counterexample: with empty segments and one āya, the guard
returns `([], stats)` with `total_ayahs = 1` but all category counters 0,
so the sum of the categories differs from `total_ayahs`. -/
theorem claim_C4_counterexample :
    (align_segments_hybrid (fun _ _ _ => []) (fun _ _ _ => []) [] [defaultAyah]
        [] (17/20) 30 30).2.dp_kept +
      (align_segments_hybrid (fun _ _ _ => []) (fun _ _ _ => []) [] [defaultAyah]
        [] (17/20) 30 30).2.old_fallback +
      (align_segments_hybrid (fun _ _ _ => []) (fun _ _ _ => []) [] [defaultAyah]
        [] (17/20) 30 30).2.split_improved +
      (align_segments_hybrid (fun _ _ _ => []) (fun _ _ _ => []) [] [defaultAyah]
        [] (17/20) 30 30).2.still_low ≠
    (align_segments_hybrid (fun _ _ _ => []) (fun _ _ _ => []) [] [defaultAyah]
      [] (17/20) 30 30).2.total_ayahs := by decide

theorem hybridStep_fst (segments : List Segment) (silences_ms : List (ℤ × ℤ))
    (quality_threshold : ℚ) (long_ayah_words : ℕ) (long_ayah_duration : ℚ)
    (old_by_ayah : List (ℕ × AlignmentResult))
    (acc : List AlignmentResult × HybridStats) (dp_r : AlignmentResult) :
    (hybridStep segments silences_ms quality_threshold long_ayah_words
      long_ayah_duration old_by_ayah acc dp_r).1 =
      acc.1 ++ [hybridEmitOne segments silences_ms quality_threshold
        long_ayah_words long_ayah_duration old_by_ayah dp_r] := by
  unfold hybridStep hybridEmitOne
  split
  · rfl
  · rfl

/-- The main loop emits exactly one result per DP result, in order. -/
theorem hybrid_fold_map (segments : List Segment) (silences_ms : List (ℤ × ℤ))
    (quality_threshold : ℚ) (long_ayah_words : ℕ) (long_ayah_duration : ℚ)
    (old_by_ayah : List (ℕ × AlignmentResult)) :
    ∀ (l : List AlignmentResult) (acc : List AlignmentResult) (st : HybridStats),
      (l.foldl (hybridStep segments silences_ms quality_threshold
        long_ayah_words long_ayah_duration old_by_ayah) (acc, st)).1 =
      acc ++ l.map (hybridEmitOne segments silences_ms quality_threshold
        long_ayah_words long_ayah_duration old_by_ayah) := by
  intro l
  induction l with
  | nil => intro acc st; simp
  | cons x xs ih =>
    intro acc st
    rw [List.foldl_cons]
    have hstep : hybridStep segments silences_ms quality_threshold
        long_ayah_words long_ayah_duration old_by_ayah (acc, st) x =
        (acc ++ [hybridEmitOne segments silences_ms quality_threshold
          long_ayah_words long_ayah_duration old_by_ayah x],
        (hybridStep segments silences_ms quality_threshold long_ayah_words
          long_ayah_duration old_by_ayah (acc, st) x).2) := by
      rw [← hybridStep_fst segments silences_ms quality_threshold
        long_ayah_words long_ayah_duration old_by_ayah (acc, st) x]
    rw [hstep, ih]
    simp

/-- The fallback chain returns a member of the candidate set with maximal
similarity. -/
theorem hybridChoose_spec (segments : List Segment)
    (silences_ms : List (ℤ × ℤ)) (dp_r : AlignmentResult)
    (old? : Option AlignmentResult) (is_long : Bool) :
    (hybridChoose segments silences_ms dp_r old? is_long).1 ∈
      dp_r :: ((if is_long then
          (try_split_and_restitch segments dp_r.ayah dp_r silences_ms).toList
        else []) ++ old?.toList) ∧
    ∀ c ∈ dp_r :: ((if is_long then
        (try_split_and_restitch segments dp_r.ayah dp_r silences_ms).toList
      else []) ++ old?.toList),
      c.similarity_score ≤
        (hybridChoose segments silences_ms dp_r old? is_long).1.similarity_score := by
  cases hlong : is_long with
  | false =>
    simp only [hybridChoose, Bool.false_eq_true, if_false, List.nil_append]
    cases hold : old? with
    | none =>
      refine ⟨List.mem_cons_self _ _, ?_⟩
      intro c hc
      simp at hc
      subst hc
      exact le_rfl
    | some old_r =>
      dsimp only
      split
      · rename_i hgt
        refine ⟨by simp, ?_⟩
        intro c hc
        simp at hc
        rcases hc with rfl | rfl
        · exact le_of_lt (of_decide_eq_true hgt)
        · exact le_rfl
      · rename_i hgt
        refine ⟨List.mem_cons_self _ _, ?_⟩
        intro c hc
        simp at hc
        rcases hc with rfl | rfl
        · exact le_rfl
        · simpa using of_decide_eq_false (Bool.of_not_eq_true hgt)
  | true =>
    simp only [hybridChoose, eq_self_iff_true, if_true]
    cases hsplit : try_split_and_restitch segments dp_r.ayah dp_r silences_ms with
    | none =>
      cases hold : old? with
      | none =>
        refine ⟨List.mem_cons_self _ _, ?_⟩
        intro c hc
        simp at hc
        subst hc
        exact le_rfl
      | some old_r =>
        dsimp only
        split
        · rename_i hgt
          refine ⟨by simp, ?_⟩
          intro c hc
          simp at hc
          rcases hc with rfl | rfl
          · exact le_of_lt (of_decide_eq_true hgt)
          · exact le_rfl
        · rename_i hgt
          refine ⟨List.mem_cons_self _ _, ?_⟩
          intro c hc
          simp at hc
          rcases hc with rfl | rfl
          · exact le_rfl
          · simpa using of_decide_eq_false (Bool.of_not_eq_true hgt)
    | some sr =>
      cases hold : old? with
      | none =>
        dsimp only
        by_cases hsr : decide (dp_r.similarity_score < sr.similarity_score) = true
        · rw [if_pos hsr]
          refine ⟨by simp, ?_⟩
          intro c hc
          simp at hc
          rcases hc with rfl | rfl
          · exact le_of_lt (of_decide_eq_true hsr)
          · exact le_rfl
        · rw [if_neg hsr]
          refine ⟨List.mem_cons_self _ _, ?_⟩
          intro c hc
          simp at hc
          rcases hc with rfl | rfl
          · exact le_rfl
          · simpa using of_decide_eq_false (Bool.of_not_eq_true hsr)
      | some old_r =>
        dsimp only
        by_cases hsr : decide (dp_r.similarity_score < sr.similarity_score) = true
        · rw [if_pos hsr]
          have hdsr : dp_r.similarity_score ≤ sr.similarity_score :=
            le_of_lt (of_decide_eq_true hsr)
          by_cases hgt : decide (sr.similarity_score < old_r.similarity_score) = true
          · rw [if_pos hgt]
            have hso : sr.similarity_score ≤ old_r.similarity_score :=
              le_of_lt (of_decide_eq_true hgt)
            refine ⟨by simp, ?_⟩
            intro c hc
            simp at hc
            rcases hc with rfl | rfl | rfl
            · exact le_trans hdsr hso
            · exact hso
            · exact le_rfl
          · rw [if_neg hgt]
            have hos : old_r.similarity_score ≤ sr.similarity_score := by
              simpa using of_decide_eq_false (Bool.of_not_eq_true hgt)
            refine ⟨by simp, ?_⟩
            intro c hc
            simp at hc
            rcases hc with rfl | rfl | rfl
            · exact hdsr
            · exact le_rfl
            · exact hos
        · rw [if_neg hsr]
          have hsd : sr.similarity_score ≤ dp_r.similarity_score := by
            simpa using of_decide_eq_false (Bool.of_not_eq_true hsr)
          by_cases hgt : decide (dp_r.similarity_score < old_r.similarity_score) = true
          · rw [if_pos hgt]
            have hdo : dp_r.similarity_score ≤ old_r.similarity_score :=
              le_of_lt (of_decide_eq_true hgt)
            refine ⟨by simp, ?_⟩
            intro c hc
            simp at hc
            rcases hc with rfl | rfl | rfl
            · exact hdo
            · exact le_trans hsd hdo
            · exact le_rfl
          · rw [if_neg hgt]
            have hod : old_r.similarity_score ≤ dp_r.similarity_score := by
              simpa using of_decide_eq_false (Bool.of_not_eq_true hgt)
            refine ⟨List.mem_cons_self _ _, ?_⟩
            intro c hc
            simp at hc
            rcases hc with rfl | rfl | rfl
            · exact le_rfl
            · exact hsd
            · exact hod

/-- Claim C3: in `align_segments_hybrid`, a DP result at or above
`quality_threshold` is emitted unchanged at its position, and a DP result
below the threshold is replaced by a member of its candidate pool (the DP
result itself, the split-and-restitch candidate when one is produced, and
the greedy result stored under the same āya number) of maximal similarity
score. -/
theorem claim_C3_hybrid_best (dpAligner greedyAligner : AlignerBackend)
    (segments : List Segment) (ayahs : List Ayah) (silences_ms : List (ℤ × ℤ))
    (quality_threshold : ℚ) (long_ayah_words : ℕ) (long_ayah_duration : ℚ)
    (i : ℕ) (dp_r : AlignmentResult)
    (hs : segments ≠ []) (ha : ayahs ≠ [])
    (hi : (dpAligner segments ayahs silences_ms)[i]? = some dp_r) :
    (quality_threshold ≤ dp_r.similarity_score →
      (align_segments_hybrid dpAligner greedyAligner segments ayahs silences_ms
        quality_threshold long_ayah_words long_ayah_duration).1[i]? =
          some dp_r) ∧
    (dp_r.similarity_score < quality_threshold →
      ∃ r, (align_segments_hybrid dpAligner greedyAligner segments ayahs
          silences_ms quality_threshold long_ayah_words
          long_ayah_duration).1[i]? = some r ∧
        r ∈ hybridCandidates segments silences_ms
            (buildOldByAyah (greedyAligner segments ayahs silences_ms)) dp_r
            (decide (long_ayah_words < (wordsOf pySpace dp_r.ayah.text).length) ||
             decide (long_ayah_duration < dp_r.end_time - dp_r.start_time)) ∧
        ∀ c ∈ hybridCandidates segments silences_ms
            (buildOldByAyah (greedyAligner segments ayahs silences_ms)) dp_r
            (decide (long_ayah_words < (wordsOf pySpace dp_r.ayah.text).length) ||
             decide (long_ayah_duration < dp_r.end_time - dp_r.start_time)),
          c.similarity_score ≤ r.similarity_score) := by
  have hne : dpAligner segments ayahs silences_ms ≠ [] := by
    intro h0
    rw [h0] at hi
    simp at hi
  have hout : (align_segments_hybrid dpAligner greedyAligner segments ayahs
      silences_ms quality_threshold long_ayah_words long_ayah_duration).1 =
      (dpAligner segments ayahs silences_ms).map
        (hybridEmitOne segments silences_ms quality_threshold long_ayah_words
          long_ayah_duration
          (buildOldByAyah (greedyAligner segments ayahs silences_ms))) := by
    simp only [align_segments_hybrid]
    rw [if_neg (not_or.mpr ⟨hs, ha⟩), if_neg hne]
    rw [hybrid_fold_map]
    simp
  have hgeti : ∀ g : AlignmentResult → AlignmentResult,
      ((dpAligner segments ayahs silences_ms).map g)[i]? = some (g dp_r) := by
    intro g
    rw [List.getElem?_map, hi]
    rfl
  constructor
  · intro hq
    rw [hout, hgeti]
    simp only [hybridEmitOne]
    rw [if_pos (decide_eq_true hq)]
  · intro hq
    have hne2 : ¬ (decide (quality_threshold ≤ dp_r.similarity_score) = true) := by
      simp [not_le.mpr hq]
    obtain ⟨hmem, hdom⟩ := hybridChoose_spec segments silences_ms dp_r
      (dictGet (buildOldByAyah (greedyAligner segments ayahs silences_ms))
        dp_r.ayah.ayah_number)
      (decide (long_ayah_words < (wordsOf pySpace dp_r.ayah.text).length) ||
       decide (long_ayah_duration < dp_r.end_time - dp_r.start_time))
    refine ⟨(hybridChoose segments silences_ms dp_r
      (dictGet (buildOldByAyah (greedyAligner segments ayahs silences_ms))
        dp_r.ayah.ayah_number)
      (decide (long_ayah_words < (wordsOf pySpace dp_r.ayah.text).length) ||
       decide (long_ayah_duration < dp_r.end_time - dp_r.start_time))).1,
      ?_, ?_, ?_⟩
    · rw [hout, hgeti]
      simp only [hybridEmitOne]
      rw [if_neg hne2]
    · simpa only [hybridCandidates] using hmem
    · intro c hc
      exact hdom c (by simpa only [hybridCandidates] using hc)

/-- Witness for claim C3 at a concrete one-segment, one-āya input. -/
theorem claim_C3_hybrid_best_witness :
    ([w3Seg] : List Segment) ≠ [] ∧ ([w3Ayah] : List Ayah) ≠ [] ∧
    (w3Dp [w3Seg] [w3Ayah] [])[0]? = some w3R ∧
    (((17 : ℚ)/20 ≤ w3R.similarity_score →
      (align_segments_hybrid w3Dp w3Greedy [w3Seg] [w3Ayah] [] (17/20) 30
        30).1[0]? = some w3R) ∧
    (w3R.similarity_score < (17 : ℚ)/20 →
      ∃ r, (align_segments_hybrid w3Dp w3Greedy [w3Seg] [w3Ayah] [] (17/20) 30
          30).1[0]? = some r ∧
        r ∈ hybridCandidates [w3Seg] []
            (buildOldByAyah (w3Greedy [w3Seg] [w3Ayah] [])) w3R
            (decide (30 < (wordsOf pySpace w3R.ayah.text).length) ||
             decide ((30 : ℚ) < w3R.end_time - w3R.start_time)) ∧
        ∀ c ∈ hybridCandidates [w3Seg] []
            (buildOldByAyah (w3Greedy [w3Seg] [w3Ayah] [])) w3R
            (decide (30 < (wordsOf pySpace w3R.ayah.text).length) ||
             decide ((30 : ℚ) < w3R.end_time - w3R.start_time)),
          c.similarity_score ≤ r.similarity_score)) :=
  ⟨List.cons_ne_nil _ _, List.cons_ne_nil _ _, rfl,
    claim_C3_hybrid_best w3Dp w3Greedy [w3Seg] [w3Ayah] [] (17/20) 30 30 0 w3R
      (List.cons_ne_nil _ _) (List.cons_ne_nil _ _) rfl⟩

set_option maxHeartbeats 2000000 in
/-- Everything the acceptance gate guarantees when
`_recover_cascade_with_resync` returns a candidate: the per-pair checks
hold over the zipped window, the candidate has the window's length, and
the averaged region (always dropping index 0, ending at `cascadeOldEnd`)
improves by more than `0.08`. -/
theorem recover_gate_of_some (segments : List Segment) (ayahs : List Ayah)
    (results : List AlignmentResult) (cs ce : ℕ) (sil : List (ℚ × ℚ))
    (ctx : ℕ) (nr : List AlignmentResult)
    (h : recover_cascade_with_resync segments ayahs results cs ce sil ctx =
      some nr) :
    ((extWindow results cs ce ctx).zip nr).all cascadePairOk = true ∧
    (nr.length : ℤ) =
      ((min results.length (ce + ctx) : ℕ) : ℤ) - ((cs - ctx : ℕ) : ℤ) ∧
    sumScores (((extWindow results cs ce ctx).drop 1).take
        (cascadeOldEnd (extWindow results cs ce ctx) - 1)) /
      ((cascadeOldEnd (extWindow results cs ce ctx) - 1 : ℕ) : ℚ) + 2/25 <
    sumScores ((nr.drop 1).take
        (cascadeOldEnd (extWindow results cs ce ctx) - 1)) /
      ((cascadeOldEnd (extWindow results cs ce ctx) - 1 : ℕ) : ℚ) := by
  rw [recover_cascade_with_resync.eq_def] at h
  lift_lets at h
  extract_lets at h
  split at h
  · exact Option.noConfusion h
  · lift_lets at h
    extract_lets at h
    split at h
    · exact Option.noConfusion h
    · lift_lets at h
      extract_lets at h
      split at h
      · exact Option.noConfusion h
      · rename_i be hbe
        lift_lets at h
        extract_lets at h
        split at h
        · exact Option.noConfusion h
        · rename_i hlen
          split at h
          · rename_i hgate
            split at h
            · exact Option.noConfusion h
            · rename_i hlen0
              split at h
              · rename_i havg
                injection h with h'
                subst h'
                refine ⟨hgate, not_ne_iff.mp hlen, havg⟩
              · exact Option.noConfusion h
          · exact Option.noConfusion h

/-- Claim C2, counterexample: on a 2-result window the code accepts a
candidate (it averages only index 1 of the window, because
`cascade_old_start = max(0, 1)` always skips the leading entry), although
the average over the whole window — what the claim's "excluding the
context āyāt only when the window has more than 2 results" requires —
improves by just 0.05 < 0.08. -/
theorem claim_C2_counterexample :
    recover_cascade_with_resync c2Segments c2Ayahs c2Results 0 2 [] 1 =
      some c2New ∧
    ¬(sumScores (extWindow c2Results 0 2 1) /
        ((extWindow c2Results 0 2 1).length : ℚ) + 2/25 <
      sumScores c2New / ((extWindow c2Results 0 2 1).length : ℚ)) := by
  constructor
  · decide
  · decide

/-- The propositional content of one per-pair degradation check. -/
theorem cascadePairOk_spec (p : AlignmentResult × AlignmentResult)
    (hb : cascadePairOk p = true) :
    (3/4 ≤ p.1.similarity_score →
      p.1.similarity_score - p.2.similarity_score ≤ 2/25) ∧
    (1/2 ≤ p.1.similarity_score →
      p.1.similarity_score - p.2.similarity_score ≤ 3/25) ∧
    (3/4 ≤ p.1.similarity_score → 7/10 ≤ p.2.similarity_score) := by
  rw [cascadePairOk, Bool.and_eq_true, Bool.and_eq_true] at hb
  obtain ⟨⟨h1, h2⟩, h3⟩ := hb
  rw [Bool.not_eq_true'] at h1 h2 h3
  refine ⟨?_, ?_, ?_⟩
  · intro hge
    by_contra hneg
    rw [not_le] at hneg
    rw [decide_eq_true hge, decide_eq_true hneg] at h1
    exact Bool.noConfusion h1
  · intro hge
    by_contra hneg
    rw [not_le] at hneg
    rw [decide_eq_true hge, decide_eq_true hneg] at h2
    exact Bool.noConfusion h2
  · intro hge
    by_contra hneg
    rw [not_le] at hneg
    rw [decide_eq_true hge, decide_eq_true hneg] at h3
    exact Bool.noConfusion h3

/-- Claim C2, amended: when `_recover_cascade_with_resync` returns a
candidate, every zipped pair of the extended window satisfies the three
degradation checks, and the average over the region that **always** starts
at index 1 of the window (and ends at `cascadeOldEnd`) improves by more
than 0.08. -/
theorem claim_C2_amended (segments : List Segment) (ayahs : List Ayah)
    (results : List AlignmentResult) (cs ce : ℕ) (sil : List (ℚ × ℚ))
    (ctx : ℕ) (nr : List AlignmentResult)
    (h : recover_cascade_with_resync segments ayahs results cs ce sil ctx =
      some nr) :
    (∀ p ∈ (extWindow results cs ce ctx).zip nr,
      (3/4 ≤ p.1.similarity_score →
        p.1.similarity_score - p.2.similarity_score ≤ 2/25) ∧
      (1/2 ≤ p.1.similarity_score →
        p.1.similarity_score - p.2.similarity_score ≤ 3/25) ∧
      (3/4 ≤ p.1.similarity_score → 7/10 ≤ p.2.similarity_score)) ∧
    sumScores (((extWindow results cs ce ctx).drop 1).take
        (cascadeOldEnd (extWindow results cs ce ctx) - 1)) /
      ((cascadeOldEnd (extWindow results cs ce ctx) - 1 : ℕ) : ℚ) + 2/25 <
    sumScores ((nr.drop 1).take
        (cascadeOldEnd (extWindow results cs ce ctx) - 1)) /
      ((cascadeOldEnd (extWindow results cs ce ctx) - 1 : ℕ) : ℚ) := by
  obtain ⟨hgate, -, havg⟩ :=
    recover_gate_of_some segments ayahs results cs ce sil ctx nr h
  refine ⟨?_, havg⟩
  intro p hp
  exact cascadePairOk_spec p (List.all_eq_true.mp hgate p hp)

/-- Witness for the amended claim C2 at the concrete `c2` input. -/
theorem claim_C2_amended_witness :
    recover_cascade_with_resync c2Segments c2Ayahs c2Results 0 2 [] 1 =
      some c2New ∧
    ((∀ p ∈ (extWindow c2Results 0 2 1).zip c2New,
      (3/4 ≤ p.1.similarity_score →
        p.1.similarity_score - p.2.similarity_score ≤ 2/25) ∧
      (1/2 ≤ p.1.similarity_score →
        p.1.similarity_score - p.2.similarity_score ≤ 3/25) ∧
      (3/4 ≤ p.1.similarity_score → 7/10 ≤ p.2.similarity_score)) ∧
    sumScores (((extWindow c2Results 0 2 1).drop 1).take
        (cascadeOldEnd (extWindow c2Results 0 2 1) - 1)) /
      ((cascadeOldEnd (extWindow c2Results 0 2 1) - 1 : ℕ) : ℚ) + 2/25 <
    sumScores ((c2New.drop 1).take
        (cascadeOldEnd (extWindow c2Results 0 2 1) - 1)) /
      ((cascadeOldEnd (extWindow c2Results 0 2 1) - 1 : ℕ) : ℚ)) :=
  ⟨by decide,
   claim_C2_amended c2Segments c2Ayahs c2Results 0 2 [] 1 c2New (by decide)⟩

/-- Claim C1, counterexample: two cascades interact.  The āya at index 2
starts with similarity 3/4 ≥ 0.75; recovering the second cascade rewrites
it (as context) to similarity 5/8 — allowed, since the first cascade's
accepted recovery had already changed the stored score — and the final
list has 5/8 < 0.70 at index 2. -/
theorem claim_C1_counterexample :
    3/4 ≤ (c1Results.getD 2 defaultResult).similarity_score ∧
    ((apply_cascade_recovery c1Segments c1Ayahs c1Results [] (7/10) 2).getD 2
      defaultResult).similarity_score < 7/10 := by
  constructor
  · decide
  · decide

/-- Claim C1, amended: the protection holds within one accepted recovery:
any result of the extended window whose similarity was ≥ 0.75 **at the
time that recovery ran** keeps similarity ≥ 0.70 in the accepted
candidate.  (The end-to-end property fails only because a later cascade's
context window overlaps an earlier accepted recovery; see the
counterexample.) -/
theorem claim_C1_amended (segments : List Segment) (ayahs : List Ayah)
    (results : List AlignmentResult) (cs ce : ℕ) (sil : List (ℚ × ℚ))
    (ctx : ℕ) (nr : List AlignmentResult)
    (h : recover_cascade_with_resync segments ayahs results cs ce sil ctx =
      some nr) :
    ∀ p ∈ (extWindow results cs ce ctx).zip nr,
      3/4 ≤ p.1.similarity_score → 7/10 ≤ p.2.similarity_score := by
  obtain ⟨hgate, -, -⟩ :=
    recover_gate_of_some segments ayahs results cs ce sil ctx nr h
  intro p hp h75
  exact (cascadePairOk_spec p (List.all_eq_true.mp hgate p hp)).2.2 h75

/-- Witness for the amended claim C1 at the concrete `c2` input. -/
theorem claim_C1_amended_witness :
    recover_cascade_with_resync c2Segments c2Ayahs c2Results 0 2 [] 1 =
      some c2New ∧
    ∀ p ∈ (extWindow c2Results 0 2 1).zip c2New,
      3/4 ≤ p.1.similarity_score → 7/10 ≤ p.2.similarity_score :=
  ⟨by decide,
   claim_C1_amended c2Segments c2Ayahs c2Results 0 2 [] 1 c2New (by decide)⟩

/-! ## Structure of the recovery DP solution (for claim C9) -/
theorem tlookup_append (t1 t2 : DpTable) (k : ℕ × ℕ) :
    tlookup (t1 ++ t2) k =
      match tlookup t1 k with
      | some e => some e
      | none => tlookup t2 k := by
  induction t1 with
  | nil => rfl
  | cons x t ih =>
    rcases x with ⟨kx, ex⟩
    by_cases hk : kx = k
    · simp [tlookup, hk]
    · simp only [List.cons_append, tlookup, if_neg hk]
      exact ih

theorem tlookup_mono (t1 t2 : DpTable) (k : ℕ × ℕ) (e : DpEntry)
    (h : tlookup t1 k = some e) : tlookup (t1 ++ t2) k = some e := by
  rw [tlookup_append, h]

/-- A running binary choice ends on the seed or a list member. -/
theorem foldl_binary_mem {α : Type} (g : α → α → α)
    (hg : ∀ b c, g b c = b ∨ g b c = c) :
    ∀ (l : List α) (a : α), l.foldl g a = a ∨ l.foldl g a ∈ l := by
  intro l
  induction l with
  | nil => intro a; exact Or.inl rfl
  | cons x t ih =>
    intro a
    rw [List.foldl_cons]
    rcases ih (g a x) with h | h
    · rcases hg a x with hx | hx
      · exact Or.inl (by rw [h, hx])
      · refine Or.inr ?_
        rw [h, hx]
        exact List.mem_cons_self x t
    · exact Or.inr (List.mem_cons_of_mem x h)

theorem pickMinEntry_mem (l : List DpEntry) (e : DpEntry)
    (h : pickMinEntry l = some e) : e ∈ l := by
  cases l with
  | nil => exact Option.noConfusion h
  | cons x t =>
    injection h with h'
    have hmem := foldl_binary_mem (fun b c => if c.cost < b.cost then c else b)
      (fun b c => by
        dsimp only
        by_cases hc : c.cost < b.cost
        · rw [if_pos hc]
          exact Or.inr rfl
        · rw [if_neg hc]
          exact Or.inl rfl) t x
    rw [h'] at hmem
    rcases hmem with h1 | h1
    · rw [h1]
      exact List.mem_cons_self x t
    · exact List.mem_cons_of_mem x h1

theorem cellCandidates_parent (tb : DpTable) (ss : List Segment)
    (sa : List Ayah) (sae : List ℕ) (ms i j : ℕ) (e : DpEntry)
    (h : e ∈ cellCandidates tb ss sa sae ms i j) :
    ∃ k prev, tlookup tb (i - k, j - 1) = some prev ∧
      e.parent = some (i - k, j - 1) := by
  simp only [cellCandidates, List.mem_filterMap] at h
  obtain ⟨k, -, hk⟩ := h
  rcases hl : tlookup tb (i - k, j - 1) with - | prev
  · rw [hl] at hk
    exact absurd hk (by simp)
  · rw [hl] at hk
    refine ⟨k, prev, hl, ?_⟩
    simp only at hk
    injection hk with he
    rw [← he]

theorem TableOk_append_cell (tb : DpTable) (ss : List Segment)
    (sa : List Ayah) (sae : List ℕ) (ms i j : ℕ) (e : DpEntry)
    (hok : TableOk tb) (hj : 1 ≤ j)
    (he : pickMinEntry (cellCandidates tb ss sa sae ms i j) = some e) :
    TableOk (tb ++ [((i, j), e)]) := by
  intro k e' hke
  rw [tlookup_append] at hke
  rcases hol : tlookup tb k with - | eo
  · rw [hol] at hke
    simp only [tlookup] at hke
    split at hke
    · rename_i hkij
      injection hke with hke'
      subst hke'
      obtain ⟨kk, prev, hprev, hpar⟩ :=
        cellCandidates_parent tb ss sa sae ms i j e (pickMinEntry_mem _ _ he)
      constructor
      · intro hk0
        exfalso
        rw [← hkij] at hk0
        dsimp only at hk0
        omega
      · intro _
        refine ⟨(i - kk, j - 1), prev, hpar, ?_,
          tlookup_mono _ _ _ _ hprev⟩
        rw [← hkij]
        dsimp only
        omega
    · exact Option.noConfusion hke
  · rw [hol] at hke
    injection hke with hke'
    subst hke'
    obtain ⟨h0, h1⟩ := hok k eo hol
    refine ⟨h0, ?_⟩
    intro hk1
    obtain ⟨p, pe, hpar, hpj, hpl⟩ := h1 hk1
    exact ⟨p, pe, hpar, hpj, tlookup_mono _ _ _ _ hpl⟩

theorem TableOk_inner_foldl (ss : List Segment) (sa : List Ayah)
    (sae : List ℕ) (ms j : ℕ) (hj : 1 ≤ j) :
    ∀ (lst : List ℕ) (tb : DpTable), TableOk tb →
      TableOk (lst.foldl (fun tb2 i =>
        match pickMinEntry (cellCandidates tb2 ss sa sae ms i j) with
        | some e => tb2 ++ [((i, j), e)]
        | none => tb2) tb) := by
  intro lst
  induction lst with
  | nil => intro tb h; exact h
  | cons x t ih =>
    intro tb h
    rw [List.foldl_cons]
    apply ih
    rcases hp : pickMinEntry (cellCandidates tb ss sa sae ms x j) with - | e
    · simpa [hp] using h
    · simpa [hp] using TableOk_append_cell tb ss sa sae ms x j e h hj hp

theorem TableOk_outer_foldl (ss : List Segment) (sa : List Ayah)
    (sae : List ℕ) (ms nS : ℕ) :
    ∀ (jl : List ℕ) (tb : DpTable), (∀ j ∈ jl, 1 ≤ j) → TableOk tb →
      TableOk (jl.foldl (fun tb j =>
        (List.range' j (nS + 1 - j)).foldl (fun tb2 i =>
          match pickMinEntry (cellCandidates tb2 ss sa sae ms i j) with
          | some e => tb2 ++ [((i, j), e)]
          | none => tb2) tb) tb) := by
  intro jl
  induction jl with
  | nil => intro tb _ h; exact h
  | cons j t ih =>
    intro tb hall hinit
    rw [List.foldl_cons]
    exact ih _ (fun x hx => hall x (List.mem_cons_of_mem _ hx))
      (TableOk_inner_foldl ss sa sae ms j (hall j (List.mem_cons_self _ _)) _ _
        hinit)

theorem TableOk_fillTable (ss : List Segment) (sa : List Ayah)
    (sae : List ℕ) (ms nS nA : ℕ) :
    TableOk (fillTable ss sa sae ms nS nA) := by
  rw [fillTable]
  refine TableOk_outer_foldl ss sa sae ms nS (List.range' 1 nA) _ ?_ ?_
  · intro j hj
    rw [List.mem_range'] at hj
    omega
  · intro k e hke
    simp only [tlookup] at hke
    split at hke
    · rename_i hk
      injection hke with hke'
      subst hke'
      refine ⟨fun _ => rfl, ?_⟩
      intro h1
      exfalso
      rw [← hk] at h1
      dsimp only at h1
      omega
    · exact Option.noConfusion hke

theorem bestEnd_lookup (tb : DpTable) (nS nA : ℕ) (be : (ℕ × ℕ) × DpEntry)
    (h : bestEnd tb nS nA = some be) :
    tlookup tb be.1 = some be.2 ∧ be.1.2 = nA := by
  unfold bestEnd at h
  rcases hfm : (List.range' nA (nS + 1 - nA)).filterMap (fun i =>
      match tlookup tb (i, nA) with
      | none => none
      | some e => some ((i, nA), e)) with - | ⟨c, cs⟩
  · rw [hfm] at h
    exact absurd h (by simp)
  · rw [hfm] at h
    simp only at h
    injection h with h'
    have hmem := foldl_binary_mem
      (fun b c' => if c'.2.cost < b.2.cost then c' else b)
      (fun b c' => by
        dsimp only
        by_cases hc : c'.2.cost < b.2.cost
        · rw [if_pos hc]
          exact Or.inr rfl
        · rw [if_neg hc]
          exact Or.inl rfl) cs c
    rw [h'] at hmem
    have hbe : be ∈ c :: cs := by
      rcases hmem with h1 | h1
      · rw [h1]
        exact List.mem_cons_self _ _
      · exact List.mem_cons_of_mem _ h1
    rw [← hfm, List.mem_filterMap] at hbe
    obtain ⟨i, -, hi⟩ := hbe
    rcases hl : tlookup tb (i, nA) with - | e
    · rw [hl] at hi
      exact absurd hi (by simp)
    · rw [hl] at hi
      simp only at hi
      injection hi with hi'
      subst hi'
      exact ⟨hl, rfl⟩

/-- Backtracking from a stored cell with āya index `j` yields exactly the
āya indices `1, …, j`, in order. -/
theorem backtrack_map_ayahIdx (tb : DpTable) (hok : TableOk tb) :
    ∀ (j fuel : ℕ) (k : ℕ × ℕ) (e : DpEntry), tlookup tb k = some e →
      k.2 = j → j < fuel →
      (backtrack tb fuel k).map (fun pe => pe.ayahIdx) = List.range' 1 j := by
  intro j
  induction j with
  | zero =>
    intro fuel k e hk hj hf
    cases fuel with
    | zero => omega
    | succ f =>
      have hpar := (hok k e hk).1 hj
      simp [backtrack, hk, hpar]
  | succ n ih =>
    intro fuel k e hk hj hf
    cases fuel with
    | zero => omega
    | succ f =>
      obtain ⟨p, pe, hpar, hpj, hpl⟩ := (hok k e hk).2 (by omega)
      have hrec := ih f p pe hpl (by omega) (by omega)
      simp only [backtrack, hk, hpar]
      rw [List.map_append, hrec]
      simp only [List.map_cons, List.map_nil]
      rw [List.range'_concat]
      congr 1
      dsimp only
      rw [hj, Nat.add_comm]
      simp

theorem filterMap_full {α β : Type} (f : α → Option β) :
    ∀ (l : List α), (l.filterMap f).length = l.length →
      ∀ k : ℕ, (l.filterMap f)[k]? = (l[k]?).bind f := by
  intro l
  induction l with
  | nil =>
    intro _ k
    simp
  | cons x t ih =>
    intro hlen k
    rcases hx : f x with - | y
    · exfalso
      simp only [List.filterMap_cons, hx, List.length_cons] at hlen
      have := List.length_filterMap_le f t
      omega
    · simp only [List.filterMap_cons, hx]
      cases k with
      | zero => simp [hx]
      | succ n =>
        simp only [List.getElem?_cons_succ]
        apply ih
        simp only [List.filterMap_cons, hx, List.length_cons] at hlen
        omega

set_option maxHeartbeats 4000000 in
/-- The shape of an accepted recovery candidate: it has the extended
window's length and, position by position, refers to the same āyāt as the
window it replaces. -/
theorem recover_some_shape (segments : List Segment) (ayahs : List Ayah)
    (results : List AlignmentResult) (cs ce : ℕ) (sil : List (ℚ × ℚ))
    (ctx : ℕ) (nr : List AlignmentResult)
    (h : recover_cascade_with_resync segments ayahs results cs ce sil ctx =
      some nr) :
    nr.length = min results.length (ce + ctx) - (cs - ctx) ∧
    ∀ k, k < nr.length → (nr.getD k defaultResult).ayah =
      ((extWindow results cs ce ctx).getD k defaultResult).ayah := by
  rw [recover_cascade_with_resync.eq_def] at h
  lift_lets at h
  extract_lets es ee sst sete sidx srs sre subS subA rsil nS nA sae ms tb orr
    cos coe clen oavg at h
  split at h
  · exact Option.noConfusion h
  · split at h
    · exact Option.noConfusion h
    · split at h
      · exact Option.noConfusion h
      · rename_i be hbe
        lift_lets at h
        extract_lets path nrl navg at h
        split at h
        · exact Option.noConfusion h
        · rename_i hlen
          split at h
          · split at h
            · exact Option.noConfusion h
            · split at h
              · injection h with h'
                subst h'
                have hlenZ : (nrl.length : ℤ) = (ee : ℤ) - (es : ℤ) :=
                  not_ne_iff.mp hlen
                have hok : TableOk tb := TableOk_fillTable subS subA sae ms nS nA
                obtain ⟨hbl, hbj⟩ := bestEnd_lookup tb nS nA be hbe
                have hpath : path.map (fun pe => pe.ayahIdx) =
                    List.range' 1 nA :=
                  backtrack_map_ayahIdx tb hok nA (nA + 1) be.1 be.2 hbl hbj
                    (by omega)
                have hplen : path.length = nA := by
                  have hml := congrArg List.length hpath
                  simpa using hml
                have hee : ee = min results.length (ce + ctx) := rfl
                have hes : es = cs - ctx := rfl
                have hwin : (extWindow results cs ce ctx).length =
                    min results.length (ce + ctx) - (cs - ctx) := by
                  simp only [extWindow, List.length_take, List.length_drop]
                  omega
                have hnA : nA = (extWindow results cs ce ctx).length := by
                  rw [show nA = subA.length from rfl,
                    show subA = (extWindow results cs ce ctx).map
                      (fun r => r.ayah) from rfl, List.length_map]
                have hlenN : nrl.length = ee - es := by omega
                have hfme : nrl.length = path.length := by
                  rw [hlenN, hplen, hnA, hwin, hee, hes]
                have hfull := filterMap_full _ path
                  (show (path.filterMap _).length = path.length from hfme)
                refine ⟨?_, ?_⟩
                · rw [hlenN, hee, hes]
                · intro k hk
                  have hkP : k < path.length := by omega
                  have hkA : k < nA := by omega
                  have hkW : k < (extWindow results cs ce ctx).length := by
                    omega
                  obtain ⟨pe, hpe⟩ : ∃ pe, path[k]? = some pe :=
                    ⟨_, List.getElem?_eq_getElem hkP⟩
                  obtain ⟨nrk, hnrk⟩ : ∃ r, nrl[k]? = some r :=
                    ⟨_, List.getElem?_eq_getElem hk⟩
                  have hpay : pe.ayahIdx = 1 + k := by
                    have h1 : (path.map (fun q => q.ayahIdx))[k]? =
                        (List.range' 1 nA)[k]? := by rw [hpath]
                    rw [List.getElem?_map, hpe] at h1
                    simp only [Option.map_some'] at h1
                    have hkA' : k < (List.range' 1 nA).length := by
                      simpa using hkA
                    rw [List.getElem?_eq_getElem hkA'] at h1
                    injection h1 with h1'
                    rw [h1']
                    simp [List.getElem_range']
                  have h4 := hfull k
                  rw [hnrk, hpe] at h4
                  simp only [Option.some_bind] at h4
                  have h6 : subA.getD k defaultAyah =
                      ((extWindow results cs ce ctx).getD k
                        defaultResult).ayah := by
                    rw [show subA = (extWindow results cs ce ctx).map
                        (fun r => r.ayah) from rfl,
                      List.getD_eq_getElem?_getD, List.getElem?_map,
                      List.getElem?_eq_getElem hkW,
                      List.getD_eq_getElem?_getD,
                      List.getElem?_eq_getElem hkW]
                    simp
                  rw [List.getD_eq_getElem?_getD, hnrk]
                  simp only [Option.getD_some]
                  split at h4
                  · exact Option.noConfusion h4
                  · injection h4 with h5
                    rw [h5]
                    dsimp only
                    rw [hpay, Nat.add_sub_cancel_left]
                    exact h6
              · exact Option.noConfusion h
          · exact Option.noConfusion h

/-- Replacing the slice `[es, ee)` of a list by a replacement of the same
length keeps the length and leaves every position outside the slice
untouched. -/
theorem splice_getD {α : Type} (d : α) (l rep : List α) (es ee : ℕ)
    (h1 : es < ee) (h2 : ee ≤ l.length) (h3 : rep.length = ee - es) :
    (l.take es ++ rep ++ l.drop ee).length = l.length ∧
    ∀ i, i < l.length →
      (l.take es ++ rep ++ l.drop ee).getD i d =
        if i < es then l.getD i d
        else if i < ee then rep.getD (i - es) d
        else l.getD i d := by
  constructor
  · simp only [List.length_append, List.length_take, List.length_drop]
    omega
  · intro i hi
    by_cases hies : i < es
    · rw [if_pos hies]
      rw [List.getD_eq_getElem?_getD, List.getD_eq_getElem?_getD]
      rw [List.getElem?_append]
      rw [if_pos (show i < (List.take es l ++ rep).length by
        simp only [List.length_append, List.length_take]
        omega)]
      rw [List.getElem?_append]
      rw [if_pos (show i < (List.take es l).length by
        simp only [List.length_take]
        omega)]
      rw [List.getElem?_take, if_pos hies]
    · rw [if_neg hies]
      by_cases hiee : i < ee
      · rw [if_pos hiee]
        rw [List.getD_eq_getElem?_getD, List.getD_eq_getElem?_getD]
        rw [List.getElem?_append]
        rw [if_pos (show i < (List.take es l ++ rep).length by
          simp only [List.length_append, List.length_take]
          omega)]
        rw [List.getElem?_append]
        rw [if_neg (show ¬ i < (List.take es l).length by
          simp only [List.length_take]
          omega)]
        have hA : (List.take es l).length = es := by
          rw [List.length_take]
          omega
        rw [hA]
      · rw [if_neg hiee]
        rw [List.getD_eq_getElem?_getD, List.getD_eq_getElem?_getD]
        rw [List.getElem?_append]
        rw [if_neg (show ¬ i < (List.take es l ++ rep).length by
          simp only [List.length_append, List.length_take]
          omega)]
        have hAB : (List.take es l ++ rep).length = ee := by
          simp only [List.length_append, List.length_take]
          omega
        rw [hAB, List.getElem?_drop]
        congr 2
        omega

theorem cascadeStep_shape (segments : List Segment) (ayahs : List Ayah)
    (sil : List (ℚ × ℚ)) (improved : List AlignmentResult) (c : ℕ × ℕ) :
    (cascadeStep segments ayahs sil improved c).length = improved.length ∧
    ∀ i, i < improved.length →
      ((cascadeStep segments ayahs sil improved c).getD i defaultResult).ayah =
        (improved.getD i defaultResult).ayah := by
  unfold cascadeStep
  rcases hrec : recover_cascade_with_resync segments ayahs improved c.1 c.2
    sil 1 with - | recovery
  · exact ⟨rfl, fun i _ => rfl⟩
  · dsimp only
    split
    · exact ⟨rfl, fun i _ => rfl⟩
    · rename_i hne
      obtain ⟨hrl, hray⟩ := recover_some_shape segments ayahs improved c.1 c.2
        sil 1 recovery hrec
      have hlee : min improved.length (c.2 + 1) ≤ improved.length :=
        min_le_left _ _
      have hpos : 0 < recovery.length := by
        rcases Nat.eq_zero_or_pos recovery.length with h0 | hpos
        · exact absurd (List.length_eq_zero.mp h0) hne
        · exact hpos
      have hlt : c.1 - 1 < min improved.length (c.2 + 1) := by omega
      obtain ⟨hslen, hsget⟩ := splice_getD defaultResult improved recovery
        (c.1 - 1) (min improved.length (c.2 + 1)) hlt hlee hrl
      refine ⟨hslen, ?_⟩
      intro i hi
      rw [hsget i hi]
      by_cases hlo : i < c.1 - 1
      · rw [if_pos hlo]
      · rw [if_neg hlo]
        by_cases hmid : i < min improved.length (c.2 + 1)
        · rw [if_pos hmid]
          have hiw : i - (c.1 - 1) < recovery.length := by omega
          rw [hray (i - (c.1 - 1)) hiw]
          have hw : (extWindow improved c.1 c.2 1).getD (i - (c.1 - 1))
              defaultResult = improved.getD i defaultResult := by
            simp only [extWindow]
            rw [List.getD_eq_getElem?_getD, List.getD_eq_getElem?_getD]
            rw [List.getElem?_take, if_pos (by omega :
              i - (c.1 - 1) < min improved.length (c.2 + 1) - (c.1 - 1))]
            rw [List.getElem?_drop]
            congr 2
            omega
          rw [hw]
        · rw [if_neg hmid]

theorem foldl_cascadeStep_shape (segments : List Segment) (ayahs : List Ayah)
    (sil : List (ℚ × ℚ)) :
    ∀ (cl : List (ℕ × ℕ)) (acc : List AlignmentResult),
      (cl.foldl (cascadeStep segments ayahs sil) acc).length = acc.length ∧
      ∀ i, i < acc.length →
        ((cl.foldl (cascadeStep segments ayahs sil) acc).getD i
          defaultResult).ayah = (acc.getD i defaultResult).ayah := by
  intro cl
  induction cl with
  | nil => intro acc; exact ⟨rfl, fun i _ => rfl⟩
  | cons c t ih =>
    intro acc
    rw [List.foldl_cons]
    obtain ⟨hl1, ha1⟩ := cascadeStep_shape segments ayahs sil acc c
    obtain ⟨hl2, ha2⟩ := ih (cascadeStep segments ayahs sil acc c)
    refine ⟨hl2.trans hl1, ?_⟩
    intro i hi
    rw [ha2 i (by omega), ha1 i hi]

/-- Claim C9: `apply_cascade_recovery` returns a list of the same length
as its input in which position `i` refers to the same āya as position `i`
of the input — accepted recoveries replace exactly the affected slice
(with same-āya entries), rejected ones leave the originals in place. -/
theorem claim_C9_shape (segments : List Segment) (ayahs : List Ayah)
    (results : List AlignmentResult) (silences_ms : List (ℤ × ℤ))
    (cascade_threshold : ℚ) (min_cascade_length : ℕ) :
    (apply_cascade_recovery segments ayahs results silences_ms
      cascade_threshold min_cascade_length).length = results.length ∧
    ∀ i, i < results.length →
      ((apply_cascade_recovery segments ayahs results silences_ms
        cascade_threshold min_cascade_length).getD i defaultResult).ayah =
      (results.getD i defaultResult).ayah := by
  simp only [apply_cascade_recovery]
  split
  · exact ⟨rfl, fun i _ => rfl⟩
  · split
    · exact ⟨rfl, fun i _ => rfl⟩
    · exact foldl_cascadeStep_shape segments ayahs _ _ results
